import Mathlib

/-!
# Verification of the Pomerium data-broker storage engine core

A shallow embedding, in Lean, of the core components of the data-broker
storage engine: the iterator cartesian product (`pkg/iterutil`), the filter
AST and its DNF normalisation (`pkg/storage`), the `$index.cidr` record
matching (`pkg/storage`), the sorted-record-collection reconciler
(`pkg/grpc/databroker`), and the pebble-backed record store
(`pkg/storage/file`), together with proofs and refutations of the
specified properties.

Go slices become `List`, Go maps / pebble keyspaces become association
lists, `uint64` values become `Nat` (no arithmetic here ever approaches
2^64, so overflow is not modelled), timestamps become `Nat` microsecond
counts passed in explicitly for `time.Now()`, and fallible operations
return `Option`/`Except`-style results.
-/

namespace Pomerium

/-! ## iterutil.Product (`pkg/iterutil/iterutil.go`)

`Product` returns the cartesian product of multiple iterators.  The Go
function is written over lazy `iter.Seq` values; every use in the
repository ranges over finite slices, so it is embedded as a function on
lists returning the list of yielded tuples, preserving yield order:

* zero sequences: nothing is yielded;
* one sequence: each element is yielded as a singleton tuple;
* otherwise: for each `x` of the first sequence (tracked by `hasFirst`)
  and each `ys` of the product of the rest (tracked by `hasRest`),
  `x :: ys` is yielded; if the product of the rest yielded nothing, `[x]`
  is yielded instead; and if the first sequence was empty, the product of
  the rest is yielded unchanged.
-/

def product : List (List α) → List (List α)
  | [] => []
  | [s] => s.map (fun x => [x])
  | s :: rest =>
    let r := product rest
    if s.isEmpty then r
    else s.flatMap (fun x => if r.isEmpty then [[x]] else r.map (fun ys => x :: ys))

/-- The full cartesian product of a family of lists, one tuple per
combination, combinations enumerated in lexicographic order of the
inputs.  This definition follows the words of the specification and is
compared against `product`, the embedding of the code. -/
def cartesianCombinations : List (List α) → List (List α)
  | [] => [[]]
  | s :: rest => s.flatMap (fun x => (cartesianCombinations rest).map (fun ys => x :: ys))

theorem product_nil : product ([] : List (List α)) = [] := rfl

theorem product_singleton (s : List α) : product [s] = s.map (fun x => [x]) := rfl

theorem product_cons (s : List α) (t : List α) (rest : List (List α)) :
    product (s :: t :: rest) =
      if s.isEmpty then product (t :: rest)
      else s.flatMap (fun x =>
        if (product (t :: rest)).isEmpty then [[x]]
        else (product (t :: rest)).map (fun ys => x :: ys)) := rfl

theorem flatMap_singleton_map (l : List α) (f : α → β) :
    (l.flatMap fun x => [f x]) = l.map f := by
  induction l with
  | nil => rfl
  | cons a l ih => simp [ih]

/-- `product` of a non-empty family of non-empty sequences is non-empty. -/
theorem product_ne_nil (l : List (List α)) (hne : l ≠ []) (hall : ∀ s ∈ l, s ≠ []) :
    product l ≠ [] := by
  induction l with
  | nil => exact absurd rfl hne
  | cons s rest ih =>
    have hs : s ≠ [] := hall s (List.mem_cons_self ..)
    match rest with
    | [] =>
      rw [product_singleton]
      simpa using hs
    | t :: rest' =>
      have hr : product (t :: rest') ≠ [] :=
        ih (by simp) (fun u hu => hall u (List.mem_cons_of_mem _ hu))
      rw [product_cons]
      rw [if_neg (by simpa [List.isEmpty_iff] using hs)]
      match hp : product (t :: rest'), hr with
      | p :: ps, _ =>
        match s, hs with
        | x :: s', _ => simp [hp]

/-- Empty factors are skipped: `product` of a list of sequences equals
`product` of just its non-empty sequences. -/
theorem product_filter_ne_nil (l : List (List α)) :
    product l = product (l.filter (fun s => !s.isEmpty)) := by
  induction l with
  | nil => rfl
  | cons s rest ih =>
    by_cases hs : s = []
    · subst hs
      match rest with
      | [] => rfl
      | t :: rest' =>
        rw [product_cons, if_pos (by simp)]
        simpa using ih
    · have hsb : (!s.isEmpty) = true := by simpa [List.isEmpty_iff] using hs
      match rest with
      | [] => simp [hsb]
      | t :: rest' =>
        rw [product_cons, if_neg (by simpa [List.isEmpty_iff] using hs),
          List.filter_cons, if_pos hsb]
        rw [ih]
        match hf : (t :: rest').filter (fun s => !s.isEmpty) with
        | [] =>
          match s, hs with
          | x :: s', _ =>
            rw [hf]
            simp [product, flatMap_singleton_map]
        | u :: us =>
          rw [hf, product_cons, if_neg (by simpa [List.isEmpty_iff] using hs)]

/-- With every factor non-empty, `product` is the full cartesian product
in lexicographic order. -/
theorem product_all_ne_nil (l : List (List α)) (hne : l ≠ []) (hall : ∀ s ∈ l, s ≠ []) :
    product l = cartesianCombinations l := by
  induction l with
  | nil => exact absurd rfl hne
  | cons s rest ih =>
    have hs : s ≠ [] := hall s (List.mem_cons_self ..)
    match rest with
    | [] =>
      rw [product_singleton]
      simp [cartesianCombinations, flatMap_singleton_map]
    | t :: rest' =>
      have hall' : ∀ u ∈ t :: rest', u ≠ [] := fun u hu => hall u (List.mem_cons_of_mem _ hu)
      have hr : product (t :: rest') ≠ [] := product_ne_nil _ (by simp) hall'
      have hih : product (t :: rest') = cartesianCombinations (t :: rest') :=
        ih (by simp) hall'
      have hc : cartesianCombinations (t :: rest') ≠ [] := hih ▸ hr
      rw [product_cons, if_neg (by simpa [List.isEmpty_iff] using hs), hih]
      have hfun : (fun x => if (cartesianCombinations (t :: rest')).isEmpty = true
            then ([[x]] : List (List α))
            else (cartesianCombinations (t :: rest')).map (fun ys => x :: ys)) =
          (fun x => (cartesianCombinations (t :: rest')).map (fun ys => x :: ys)) :=
        funext fun x => if_neg (by simpa [List.isEmpty_iff] using hc)
      rw [hfun]
      rfl

/-! ## Comparators

Go code compares strings byte-lexicographically (`strings.Compare`,
`cmp.Compare`) and lists elementwise (`slices.Compare`).  UTF-8 byte
order coincides with code-point order, so strings are compared through
their code-point sequences.  `LawfulCmp` packages the three facts every
comparator used here satisfies; they make the comparator a decidable
linear order. -/

def natCmp (a b : Nat) : Ordering :=
  if a < b then .lt else if a = b then .eq else .gt

/-- `cmp.Or` / `Ordering.then`: the first comparison that is not equal wins. -/
def ordOr : Ordering → Ordering → Ordering
  | .eq, o => o
  | o, _ => o

def listCmp (cmp : α → α → Ordering) : List α → List α → Ordering
  | [], [] => .eq
  | [], _ :: _ => .lt
  | _ :: _, [] => .gt
  | a :: as, b :: bs =>
    match cmp a b with
    | .eq => listCmp cmp as bs
    | o => o

def strCmp (a b : String) : Ordering :=
  listCmp natCmp (a.data.map Char.toNat) (b.data.map Char.toNat)

structure LawfulCmp (cmp : α → α → Ordering) : Prop where
  eq_iff : ∀ a b, cmp a b = .eq ↔ a = b
  lt_iff_gt : ∀ a b, cmp a b = .lt ↔ cmp b a = .gt
  lt_trans : ∀ a b c, cmp a b = .lt → cmp b c = .lt → cmp a c = .lt

theorem natCmp_lt {a b : Nat} : natCmp a b = .lt ↔ a < b := by
  unfold natCmp
  split <;> rename_i h
  · simpa using h
  · split <;> rename_i h2 <;> simp <;> omega

theorem natCmp_eq {a b : Nat} : natCmp a b = .eq ↔ a = b := by
  unfold natCmp
  split <;> rename_i h
  · simp; omega
  · split <;> rename_i h2 <;> simp <;> omega

theorem natCmp_gt {a b : Nat} : natCmp a b = .gt ↔ b < a := by
  unfold natCmp
  split <;> rename_i h
  · simp; omega
  · split <;> rename_i h2 <;> simp <;> omega

theorem lawfulCmp_natCmp : LawfulCmp natCmp := by
  constructor
  · intro a b
    exact natCmp_eq
  · intro a b
    rw [natCmp_lt, natCmp_gt]
  · intro a b c hab hbc
    rw [natCmp_lt] at *
    omega

theorem lawfulCmp_listCmp {cmp : α → α → Ordering} (h : LawfulCmp cmp) :
    LawfulCmp (listCmp cmp) := by
  constructor
  · intro a b
    induction a generalizing b with
    | nil => cases b <;> simp [listCmp]
    | cons x xs ih =>
      cases b with
      | nil => simp [listCmp]
      | cons y ys =>
        simp only [listCmp]
        rcases hxy : cmp x y with _ | _ | _ <;> simp_all [h.eq_iff x y]
        · intro he
          rw [he] at hxy
          have := (h.eq_iff y y).mpr rfl
          simp_all
        · intro he
          rw [he] at hxy
          have := (h.eq_iff y y).mpr rfl
          simp_all
  · intro a b
    induction a generalizing b with
    | nil => cases b <;> simp [listCmp]
    | cons x xs ih =>
      cases b with
      | nil => simp [listCmp]
      | cons y ys =>
        simp only [listCmp]
        rcases hxy : cmp x y with _ | _ | _
        · have hyx : cmp y x = .gt := (h.lt_iff_gt x y).mp hxy
          simp [hyx]
        · have hx : x = y := (h.eq_iff x y).mp hxy
          subst hx
          simp [hxy, ih]
        · have hyx : cmp y x = .lt := (h.lt_iff_gt y x).mpr hxy
          simp [hyx]
  · intro a b c hab hbc
    induction a generalizing b c with
    | nil =>
      cases c with
      | cons z zs => simp [listCmp]
      | nil =>
        cases b with
        | nil => simp [listCmp] at hab
        | cons y ys => simp [listCmp] at hbc
    | cons x xs ih =>
      cases b with
      | nil => simp [listCmp] at hab
      | cons y ys =>
        cases c with
        | nil => simp [listCmp] at hbc
        | cons z zs =>
          simp only [listCmp] at hab hbc ⊢
          cases hxy : cmp x y with
          | lt =>
            cases hyz : cmp y z with
            | lt => rw [h.lt_trans x y z hxy hyz]
            | eq =>
              have he : y = z := (h.eq_iff y z).mp hyz
              subst he
              rw [hxy]
            | gt =>
              rw [hyz] at hbc
              simp at hbc
          | eq =>
            have he : x = y := (h.eq_iff x y).mp hxy
            subst he
            rw [hxy] at hab
            cases hyz : cmp x z with
            | lt => rfl
            | eq =>
              rw [hyz] at hbc
              exact ih ys zs hab hbc
            | gt =>
              rw [hyz] at hbc
              simp at hbc
          | gt =>
            rw [hxy] at hab
            simp at hab

theorem lawfulCmp_strCmp : LawfulCmp strCmp := by
  have hl := lawfulCmp_listCmp lawfulCmp_natCmp
  constructor
  · intro a b
    unfold strCmp
    rw [hl.eq_iff]
    constructor
    · intro he
      have hd : a.data = b.data := by
        have hinj : Function.Injective Char.toNat := by
          intro c d hcd
          exact Char.eq_of_val_eq (UInt32.toNat.inj hcd)
        exact List.map_injective_iff.mpr hinj he
      cases a; cases b; simp_all
    · intro he
      rw [he]
  · intro a b
    exact hl.lt_iff_gt _ _
  · intro a b c hab hbc
    exact hl.lt_trans _ _ _ hab hbc

/-- Derived: a lawful comparator is reflexively `.eq`. -/
theorem LawfulCmp.cmp_refl {cmp : α → α → Ordering} (h : LawfulCmp cmp) (a : α) :
    cmp a a = .eq := (h.eq_iff a a).mpr rfl

theorem LawfulCmp.le_trans {cmp : α → α → Ordering} (h : LawfulCmp cmp) (a b c : α)
    (hab : cmp a b ≠ .gt) (hbc : cmp b c ≠ .gt) : cmp a c ≠ .gt := by
  rcases h1 : cmp a b with _ | _ | _
  · rcases h2 : cmp b c with _ | _ | _
    · simp [h.lt_trans a b c h1 h2]
    · have : b = c := (h.eq_iff b c).mp h2
      subst this
      simp [h1]
    · exact absurd h2 hbc
  · have : a = b := (h.eq_iff a b).mp h1
    subst this
    exact hbc
  · exact absurd h1 hab

theorem LawfulCmp.le_total {cmp : α → α → Ordering} (h : LawfulCmp cmp) (a b : α) :
    cmp a b ≠ .gt ∨ cmp b a ≠ .gt := by
  rcases h1 : cmp a b with _ | _ | _
  · left; simp
  · left; simp
  · right
    have : cmp b a = .lt := (h.lt_iff_gt b a).mpr h1
    simp [this]

theorem LawfulCmp.le_antisymm {cmp : α → α → Ordering} (h : LawfulCmp cmp) (a b : α)
    (hab : cmp a b ≠ .gt) (hba : cmp b a ≠ .gt) : a = b := by
  rcases h1 : cmp a b with _ | _ | _
  · have : cmp b a = .gt := (h.lt_iff_gt a b).mp h1
    exact absurd this hba
  · exact (h.eq_iff a b).mp h1
  · exact absurd h1 hab

theorem replicate_nil_filter_ne_nil (n : Nat) :
    ((List.replicate n ([] : List α)).filter (fun s => !s.isEmpty)) = [] := by
  induction n with
  | zero => rfl
  | succ n ih => simp [List.replicate_succ, ih]

/-- Claim C10: `iterutil.Product` skips empty factors rather than
producing the empty product: for any list of sequences it yields one
tuple per combination of elements drawn from the non-empty sequences, in
lexicographic order of the inputs, so the result equals the product of
the non-empty sequences alone, and the product of all-empty input is
empty. -/
theorem claim_C10 :
    (∀ (α : Type) (l : List (List α)),
      product l = product (l.filter (fun s => !s.isEmpty))) ∧
    (∀ (α : Type) (l : List (List α)), l ≠ [] → (∀ s ∈ l, s ≠ []) →
      product l = cartesianCombinations l) ∧
    (∀ (α : Type) (n : Nat), product (List.replicate n ([] : List α)) = []) := by
  refine ⟨fun α l => product_filter_ne_nil l,
    fun α l hne hall => product_all_ne_nil l hne hall,
    fun α n => ?_⟩
  rw [product_filter_ne_nil, replicate_nil_filter_ne_nil]
  rfl

/-- Witness for C10 at concrete inputs, discharging the non-emptiness
hypotheses. -/
theorem claim_C10_witness :
    product [[1, 2], [3]] = cartesianCombinations [[1, 2], [3]] ∧
    product [[1, 2], ([] : List Nat), [3, 4]] =
      product ([[1, 2], [3, 4]].filter (fun s => !s.isEmpty)) := by
  constructor
  · exact claim_C10.2.1 Nat [[1, 2], [3]] (by decide) (by decide)
  · have h := claim_C10.1 Nat [[1, 2], [], [3, 4]]
    rw [h]
    rfl

theorem ordOr_eq_lt {o1 o2 : Ordering} :
    ordOr o1 o2 = .lt ↔ o1 = .lt ∨ (o1 = .eq ∧ o2 = .lt) := by
  cases o1 <;> simp [ordOr]

theorem ordOr_eq_eq {o1 o2 : Ordering} :
    ordOr o1 o2 = .eq ↔ o1 = .eq ∧ o2 = .eq := by
  cases o1 <;> simp [ordOr]

theorem ordOr_eq_gt {o1 o2 : Ordering} :
    ordOr o1 o2 = .gt ↔ o1 = .gt ∨ (o1 = .eq ∧ o2 = .gt) := by
  cases o1 <;> simp [ordOr]

/-- A lawful comparator built from two lawful comparators on projections,
the second breaking ties of the first (the `cmp.Or` pattern used
throughout the Go code), provided the two projections are jointly
injective. -/
theorem lawfulCmp_ordOr {γ : Type _} {c1 : α → α → Ordering} {c2 : β → β → Ordering}
    {f : γ → α} {g : γ → β}
    (h1 : LawfulCmp c1) (h2 : LawfulCmp c2)
    (hinj : ∀ x y, f x = f y → g x = g y → x = y) :
    LawfulCmp (fun x y => ordOr (c1 (f x) (f y)) (c2 (g x) (g y))) := by
  constructor
  · intro x y
    rw [ordOr_eq_eq]
    constructor
    · rintro ⟨he1, he2⟩
      exact hinj x y ((h1.eq_iff _ _).mp he1) ((h2.eq_iff _ _).mp he2)
    · rintro rfl
      exact ⟨h1.cmp_refl _, h2.cmp_refl _⟩
  · intro x y
    rw [ordOr_eq_lt, ordOr_eq_gt]
    constructor
    · rintro (hlt | ⟨heq, hlt2⟩)
      · exact Or.inl ((h1.lt_iff_gt _ _).mp hlt)
      · refine Or.inr ⟨(h1.eq_iff _ _).mpr ((h1.eq_iff _ _).mp heq).symm, ?_⟩
        exact (h2.lt_iff_gt _ _).mp hlt2
    · rintro (hgt | ⟨heq, hgt2⟩)
      · exact Or.inl ((h1.lt_iff_gt _ _).mpr hgt)
      · refine Or.inr ⟨(h1.eq_iff _ _).mpr ((h1.eq_iff _ _).mp heq).symm, ?_⟩
        exact (h2.lt_iff_gt _ _).mpr hgt2
  · intro x y z hxy hyz
    rw [ordOr_eq_lt] at hxy hyz ⊢
    rcases hxy with hlt | ⟨heq, hlt2⟩
    · rcases hyz with hlt' | ⟨heq', hlt2'⟩
      · exact Or.inl (h1.lt_trans _ _ _ hlt hlt')
      · have hfe : f y = f z := (h1.eq_iff _ _).mp heq'
        exact Or.inl (hfe ▸ hlt)
    · have hfe : f x = f y := (h1.eq_iff _ _).mp heq
      rcases hyz with hlt' | ⟨heq', hlt2'⟩
      · exact Or.inl (hfe ▸ hlt')
      · have hfe2 : f y = f z := (h1.eq_iff _ _).mp heq'
        refine Or.inr ⟨(h1.eq_iff _ _).mpr (hfe.trans hfe2), ?_⟩
        exact h2.lt_trans _ _ _ hlt2 hlt2'

/-! ## Filter AST and DNF normalisation (`pkg/storage`, filter source file)

The filter language is a tagged tree of `Equals` / `And` / `Or` nodes
(`EqualsFilterExpression`, `AndFilterExpression`, `OrFilterExpression`).
`FilterToDNF` converts a filter into disjunctive normal form: `Equals`
becomes a single one-element conjunction, `Or` concatenates the DNFs of
its children, `And` multiplies child DNFs out with `iterutil.Product`
(concatenating the inner lists), and the result is canonicalised by
sorting and compacting each conjunction by `(path, value)` and then the
outer disjunction.  Go's `slices.SortFunc` is embedded as insertion
sort; since the comparator is antisymmetric up to equality, any correct
sorting algorithm produces the same list, so the choice of algorithm is
immaterial. -/

structure EqualsFilterExpression where
  fields : List String
  value : String
deriving DecidableEq, Repr

inductive FilterExpression where
  | eqExpr (e : EqualsFilterExpression)
  | andExpr (children : List FilterExpression)
  | orExpr (children : List FilterExpression)
deriving Repr

/-- `cmpEqualsFilterExpression`: compare by fields then value
(`cmp.Or(slices.Compare(a.Fields, b.Fields), cmp.Compare(a.Value, b.Value))`). -/
def cmpEquals (a b : EqualsFilterExpression) : Ordering :=
  ordOr (listCmp strCmp a.fields b.fields) (strCmp a.value b.value)

theorem lawfulCmp_cmpEquals : LawfulCmp cmpEquals := by
  have h := lawfulCmp_ordOr (γ := EqualsFilterExpression)
    (lawfulCmp_listCmp lawfulCmp_strCmp) lawfulCmp_strCmp
    (f := fun e => e.fields) (g := fun e => e.value) ?_
  · exact h
  · intro x y hf hv
    cases x; cases y; simp_all

/-- `slices.CompareFunc` on inner conjunction lists. -/
def cmpConj : List EqualsFilterExpression → List EqualsFilterExpression → Ordering :=
  listCmp cmpEquals

theorem lawfulCmp_cmpConj : LawfulCmp cmpConj :=
  lawfulCmp_listCmp lawfulCmp_cmpEquals

/-- `slices.SortFunc cmp`, embedded as insertion sort on the reflexive
closure of the comparator's strict order. -/
def sortFunc (cmp : α → α → Ordering) (l : List α) : List α :=
  l.insertionSort (fun a b => cmp a b ≠ .gt)

/-- `slices.CompactFunc eq`: drop every element equal (under `eq`) to the
last kept element. -/
def compactFuncAux (eq : α → α → Bool) (prev : α) : List α → List α
  | [] => []
  | b :: bs => if eq prev b then compactFuncAux eq prev bs else b :: compactFuncAux eq b bs

def compactFunc (eq : α → α → Bool) : List α → List α
  | [] => []
  | a :: rest => a :: compactFuncAux eq a rest

abbrev DNF := List (List EqualsFilterExpression)

/-- The `sortAndCompact` closure inside `FilterToDNF`. -/
def sortAndCompact (dnf : DNF) : DNF :=
  let inner : DNF := dnf.map (fun c =>
    compactFunc (fun a b => cmpEquals a b == .eq) (sortFunc cmpEquals c))
  compactFunc (fun a b => cmpConj a b == .eq) (sortFunc cmpConj inner)

/-- One step of the `And` accumulation in `toDNF`: the loop body
`for xs := range iterutil.Product(slices.Values(dnf), slices.Values(toDNF(f)))
{ next = append(next, slices.Concat(xs...)) }`. -/
def prodStep (d1 d2 : List (List EqualsFilterExpression)) :
    List (List EqualsFilterExpression) :=
  (product [d1, d2]).map List.flatten

mutual

/-- The recursive `toDNF` closure inside `FilterToDNF`. -/
def toDNF : FilterExpression → DNF
  | .eqExpr e => [[e]]
  | .andExpr cs => (toDNFList cs).foldl prodStep []
  | .orExpr cs => (toDNFList cs).flatten

def toDNFList : List FilterExpression → List DNF
  | [] => []
  | f :: fs => toDNF f :: toDNFList fs

end

/-- `FilterToDNF`; the `nil` filter handled by `toDNF` in Go is the
`none` case here. -/
def FilterToDNF : Option FilterExpression → DNF
  | none => sortAndCompact [[]]
  | some f => sortAndCompact (toDNF f)

/-- `EqualsFilterExpression.String()`. -/
def eqString (e : EqualsFilterExpression) : String :=
  String.intercalate "." e.fields ++ "=" ++ e.value

/-- `DNF.String()`. -/
def dnfString (d : DNF) : String :=
  String.intercalate "|"
    (d.map (fun c => "(" ++ String.intercalate "&" (c.map eqString) ++ ")"))

/-- Two filters that differ only in `And`/`Or` nesting and in the
ordering of children: the congruence closure of child permutation,
flattening a like-tagged child into its parent, and collapsing a
single-child node. -/
inductive FilterEquiv : FilterExpression → FilterExpression → Prop
  | refl (f) : FilterEquiv f f
  | symm {f g} : FilterEquiv f g → FilterEquiv g f
  | trans {f g h} : FilterEquiv f g → FilterEquiv g h → FilterEquiv f h
  | andCongr {g g'} (xs zs) : FilterEquiv g g' →
      FilterEquiv (.andExpr (xs ++ g :: zs)) (.andExpr (xs ++ g' :: zs))
  | orCongr {g g'} (xs zs) : FilterEquiv g g' →
      FilterEquiv (.orExpr (xs ++ g :: zs)) (.orExpr (xs ++ g' :: zs))
  | andPerm {cs cs'} : cs.Perm cs' → FilterEquiv (.andExpr cs) (.andExpr cs')
  | orPerm {cs cs'} : cs.Perm cs' → FilterEquiv (.orExpr cs) (.orExpr cs')
  | andFlat (xs ys zs) :
      FilterEquiv (.andExpr (xs ++ FilterExpression.andExpr ys :: zs))
        (.andExpr (xs ++ ys ++ zs))
  | orFlat (xs ys zs) :
      FilterEquiv (.orExpr (xs ++ FilterExpression.orExpr ys :: zs))
        (.orExpr (xs ++ ys ++ zs))
  | andOne (f) : FilterEquiv (.andExpr [f]) f
  | orOne (f) : FilterEquiv (.orExpr [f]) f

/-! ### Canonicity of `FilterToDNF` under `FilterEquiv`

The invariant maintained through the recursion is the multiset of
sorted inner conjunctions (`dnfKey`): each `FilterEquiv` generator
preserves it, and `sortAndCompact` is a function of it alone. -/

theorem sortFunc_perm (cmp : α → α → Ordering) (l : List α) :
    (sortFunc cmp l).Perm l :=
  List.perm_insertionSort _ l

theorem sortFunc_congr {cmp : α → α → Ordering} (h : LawfulCmp cmp)
    {l₁ l₂ : List α} (hp : l₁.Perm l₂) : sortFunc cmp l₁ = sortFunc cmp l₂ := by
  haveI : IsTotal α (fun a b => cmp a b ≠ .gt) := ⟨h.le_total⟩
  haveI : IsTrans α (fun a b => cmp a b ≠ .gt) := ⟨h.le_trans⟩
  haveI : IsAntisymm α (fun a b => cmp a b ≠ .gt) := ⟨h.le_antisymm⟩
  exact List.eq_of_perm_of_sorted
    ((List.perm_insertionSort _ _).trans (hp.trans (List.perm_insertionSort _ _).symm))
    (List.sorted_insertionSort _ _) (List.sorted_insertionSort _ _)

def sortConj (c : List EqualsFilterExpression) : List EqualsFilterExpression :=
  sortFunc cmpEquals c

theorem sortConj_congr {c₁ c₂ : List EqualsFilterExpression} (hp : c₁.Perm c₂) :
    sortConj c₁ = sortConj c₂ :=
  sortFunc_congr lawfulCmp_cmpEquals hp

theorem sortConj_append_sortConj (a b : List EqualsFilterExpression) :
    sortConj (sortConj a ++ sortConj b) = sortConj (a ++ b) :=
  sortConj_congr ((sortFunc_perm _ a).append (sortFunc_perm _ b))

/-- The multiset of sorted conjunctions of a raw DNF: the data that
survives `sortAndCompact`. -/
def dnfKey (d : DNF) : Multiset (List EqualsFilterExpression) :=
  (d.map sortConj : List (List EqualsFilterExpression))

theorem dnfKey_nil : dnfKey [] = 0 := rfl

theorem dnfKey_eq_zero {d : DNF} : dnfKey d = 0 ↔ d = [] := by
  unfold dnfKey
  rw [Multiset.coe_eq_zero]
  simp

theorem dnfKey_append (a b : DNF) : dnfKey (a ++ b) = dnfKey a + dnfKey b := by
  unfold dnfKey
  rw [List.map_append, ← Multiset.coe_add]

/-- The abstract effect of `prodStep` on keys. -/
def kProd (X Y : Multiset (List EqualsFilterExpression)) :
    Multiset (List EqualsFilterExpression) :=
  if X = 0 then Y
  else if Y = 0 then X
  else X.bind (fun a => Y.map (fun b => sortConj (a ++ b)))

theorem kProd_zero_left (Y) : kProd 0 Y = Y := by simp [kProd]

theorem kProd_zero_right (X) : kProd X 0 = X := by
  by_cases h : X = 0
  · rw [kProd, if_pos h, h]
  · rw [kProd, if_neg h, if_pos rfl]

theorem kProd_of_ne {X Y : Multiset (List EqualsFilterExpression)}
    (h1 : X ≠ 0) (h2 : Y ≠ 0) :
    kProd X Y = X.bind (fun a => Y.map (fun b => sortConj (a ++ b))) := by
  rw [kProd, if_neg h1, if_neg h2]

theorem prodStep_nil_left (d : DNF) : prodStep [] d = d := by
  unfold prodStep
  rw [product_cons, if_pos (by simp), product_singleton, List.map_map]
  have hid : (List.flatten ∘ fun x => [x]) =
      (id : List EqualsFilterExpression → List EqualsFilterExpression) :=
    funext fun x => by simp
  rw [hid, List.map_id]

theorem prodStep_nil_right (d : DNF) : prodStep d [] = d := by
  unfold prodStep
  match d with
  | [] => rfl
  | x :: xs =>
    rw [product_cons, if_neg (by simp)]
    have hp : product [([] : List (List EqualsFilterExpression))] = [] := rfl
    rw [hp]
    simp [List.map_flatMap]

theorem prodStep_of_ne {d1 d2 : DNF} (h1 : d1 ≠ []) (h2 : d2 ≠ []) :
    prodStep d1 d2 = d1.flatMap (fun a => d2.map (fun b => a ++ b)) := by
  unfold prodStep
  match d2, h2 with
  | b :: bs, _ =>
    rw [product_cons, if_neg (by simpa [List.isEmpty_iff] using h1), product_singleton]
    rw [List.map_cons]
    have hfun : (fun x => if ([b] :: bs.map (fun y => [y])).isEmpty = true
          then [[x]]
          else ([b] :: bs.map (fun y => [y])).map (fun ys => x :: ys)) =
        (fun x => ([b] :: bs.map (fun y => [y])).map (fun ys => x :: ys)) :=
      funext fun x => by rw [if_neg (by simp)]
    rw [hfun, List.map_flatMap]
    have hfun2 : (fun x => (([b] :: bs.map (fun y => [y])).map
          (fun ys => x :: ys)).map List.flatten) =
        (fun a => (b :: bs).map (fun y => a ++ y)) := by
      funext a
      simp [Function.comp, List.map_map]
    rw [hfun2]

theorem prodStep_eq_nil {d1 d2 : DNF} :
    prodStep d1 d2 = [] ↔ d1 = [] ∧ d2 = [] := by
  constructor
  · intro h
    by_cases h1 : d1 = []
    · subst h1
      rw [prodStep_nil_left] at h
      exact ⟨rfl, h⟩
    · by_cases h2 : d2 = []
      · subst h2
        rw [prodStep_nil_right] at h
        exact ⟨h, rfl⟩
      · rw [prodStep_of_ne h1 h2] at h
        rcases List.exists_mem_of_ne_nil d1 h1 with ⟨a, ha⟩
        rcases List.exists_mem_of_ne_nil d2 h2 with ⟨b, hb⟩
        have : (a ++ b) ∈ d1.flatMap (fun a => d2.map (fun b => a ++ b)) := by
          rw [List.mem_flatMap]
          exact ⟨a, ha, List.mem_map_of_mem _ hb⟩
        rw [h] at this
        cases this
  · rintro ⟨rfl, rfl⟩
    rfl

theorem dnfKey_prodStep (A B : DNF) :
    dnfKey (prodStep A B) = kProd (dnfKey A) (dnfKey B) := by
  by_cases h1 : A = []
  · subst h1
    rw [prodStep_nil_left, dnfKey_nil, kProd_zero_left]
  · by_cases h2 : B = []
    · subst h2
      rw [prodStep_nil_right, dnfKey_nil, kProd_zero_right]
    · rw [prodStep_of_ne h1 h2]
      unfold kProd
      rw [if_neg (by simpa [dnfKey_eq_zero] using h1),
        if_neg (by simpa [dnfKey_eq_zero] using h2)]
      unfold dnfKey
      have hlist :
          ((A.flatMap (fun a => B.map (fun b => a ++ b))).map sortConj) =
            (A.map sortConj).flatMap
              (fun sa => (B.map sortConj).map (fun sb => sortConj (sa ++ sb))) := by
        rw [List.map_flatMap, List.flatMap_map]
        have hfun : (fun a => (B.map (fun b => a ++ b)).map sortConj) =
            (fun a => (B.map sortConj).map (fun sb => sortConj (sortConj a ++ sb))) := by
          funext a
          rw [List.map_map, List.map_map]
          have : (sortConj ∘ fun b => a ++ b) =
              ((fun sb => sortConj (sortConj a ++ sb)) ∘ sortConj) := by
            funext b
            simp only [Function.comp]
            rw [sortConj_append_sortConj]
          rw [this]
        rw [hfun]
      rw [hlist]
      rw [← Multiset.coe_bind]
      refine Multiset.bind_congr ?_
      intro sa _
      rw [Multiset.map_coe]

theorem kProd_eq_zero {X Y : Multiset (List EqualsFilterExpression)} :
    kProd X Y = 0 ↔ X = 0 ∧ Y = 0 := by
  unfold kProd
  split <;> rename_i h1
  · simp [h1]
  · split <;> rename_i h2
    · simp [h1, h2]
    · simp only [iff_false, h1, h2, and_false, false_and]
      intro hc
      rcases Multiset.exists_mem_of_ne_zero h1 with ⟨a, ha⟩
      rcases Multiset.exists_mem_of_ne_zero h2 with ⟨b, hb⟩
      have : sortConj (a ++ b) ∈ X.bind (fun a => Y.map (fun b => sortConj (a ++ b))) := by
        rw [Multiset.mem_bind]
        exact ⟨a, ha, Multiset.mem_map_of_mem _ hb⟩
      rw [hc] at this
      cases this

theorem kProd_comm (X Y : Multiset (List EqualsFilterExpression)) :
    kProd X Y = kProd Y X := by
  unfold kProd
  by_cases h1 : X = 0
  · by_cases h2 : Y = 0 <;> simp [h1, h2]
  · by_cases h2 : Y = 0
    · simp [h1, h2]
    · rw [if_neg h1, if_neg h2, if_neg h2, if_neg h1]
      rw [Multiset.bind_map_comm]
      refine Multiset.bind_congr ?_
      intro b _
      refine Multiset.map_congr rfl ?_
      intro a _
      exact sortConj_congr (List.perm_append_comm)

theorem kProd_assoc (X Y Z : Multiset (List EqualsFilterExpression)) :
    kProd (kProd X Y) Z = kProd X (kProd Y Z) := by
  by_cases h1 : X = 0
  · rw [h1, kProd_zero_left, kProd_zero_left]
  · by_cases h2 : Y = 0
    · rw [h2, kProd_zero_right, kProd_zero_left]
    · by_cases h3 : Z = 0
      · rw [h3, kProd_zero_right, kProd_zero_right]
      · have hxy : kProd X Y ≠ 0 := by
          rw [Ne, kProd_eq_zero]
          tauto
        have hyz : kProd Y Z ≠ 0 := by
          rw [Ne, kProd_eq_zero]
          tauto
        rw [kProd_of_ne hxy h3, kProd_of_ne h1 h2, kProd_of_ne h1 hyz,
          kProd_of_ne h2 h3]
        rw [Multiset.bind_assoc]
        refine Multiset.bind_congr ?_
        intro a _
        rw [Multiset.bind_map, Multiset.map_bind]
        refine Multiset.bind_congr ?_
        intro b _
        rw [Multiset.map_map]
        refine Multiset.map_congr rfl ?_
        intro c _
        simp only [Function.comp]
        calc sortConj (sortConj (a ++ b) ++ c)
            = sortConj ((a ++ b) ++ c) :=
              sortConj_congr ((sortFunc_perm _ (a ++ b)).append (List.Perm.refl c))
          _ = sortConj (a ++ (b ++ c)) := by rw [List.append_assoc]
          _ = sortConj (a ++ sortConj (b ++ c)) :=
              (sortConj_congr ((List.Perm.refl a).append (sortFunc_perm _ (b ++ c)))).symm

theorem toDNFList_eq_map (cs : List FilterExpression) :
    toDNFList cs = cs.map toDNF := by
  induction cs with
  | nil => rfl
  | cons f fs ih => rw [toDNFList, ih, List.map_cons]

theorem dnfKey_foldl (ds : List DNF) (d0 : DNF) :
    dnfKey (ds.foldl prodStep d0) = (ds.map dnfKey).foldl kProd (dnfKey d0) := by
  induction ds generalizing d0 with
  | nil => rfl
  | cons d ds ih =>
    rw [List.foldl_cons, List.map_cons, List.foldl_cons, ih, dnfKey_prodStep]

theorem key_and (cs : List FilterExpression) :
    dnfKey (toDNF (.andExpr cs)) =
      (cs.map (fun c => dnfKey (toDNF c))).foldl kProd 0 := by
  rw [toDNF, toDNFList_eq_map, dnfKey_foldl, dnfKey_nil, List.map_map]
  rfl

theorem dnfKey_flatten (l : List DNF) :
    dnfKey l.flatten = (l.map dnfKey).sum := by
  induction l with
  | nil => rfl
  | cons d l ih =>
    rw [List.flatten_cons, dnfKey_append, ih, List.map_cons, List.sum_cons]

theorem key_or (cs : List FilterExpression) :
    dnfKey (toDNF (.orExpr cs)) = (cs.map (fun c => dnfKey (toDNF c))).sum := by
  rw [toDNF, toDNFList_eq_map, dnfKey_flatten, List.map_map]
  rfl

theorem foldl_kProd_eq (X : Multiset (List EqualsFilterExpression))
    (l : List (Multiset (List EqualsFilterExpression))) :
    l.foldl kProd X = kProd X (l.foldl kProd 0) := by
  induction l generalizing X with
  | nil => rw [List.foldl_nil, List.foldl_nil, kProd_zero_right]
  | cons Y l ih =>
    rw [List.foldl_cons, List.foldl_cons, ih (kProd X Y), ih (kProd 0 Y),
      kProd_zero_left, kProd_assoc]

theorem foldl_kProd_flat (A B C : List (Multiset (List EqualsFilterExpression))) :
    (A ++ (B.foldl kProd 0) :: C).foldl kProd 0 = ((A ++ B) ++ C).foldl kProd 0 := by
  rw [List.foldl_append, List.foldl_cons, List.foldl_append, List.foldl_append,
    foldl_kProd_eq (List.foldl kProd 0 A) B]

theorem sum_flat (A B C : List (Multiset (List EqualsFilterExpression))) :
    (A ++ (B.sum :: C)).sum = ((A ++ B) ++ C).sum := by
  simp [List.sum_append, add_assoc]

/-- `FilterEquiv` preserves the multiset of sorted conjunctions of the
raw (pre-canonicalisation) DNF. -/
theorem filterEquiv_key {f g : FilterExpression} (h : FilterEquiv f g) :
    dnfKey (toDNF f) = dnfKey (toDNF g) := by
  induction h with
  | refl f => rfl
  | symm _ ih => exact ih.symm
  | trans _ _ ih₁ ih₂ => exact ih₁.trans ih₂
  | andCongr xs zs _ ih =>
    rw [key_and, key_and, List.map_append, List.map_append, List.map_cons,
      List.map_cons, ih]
  | orCongr xs zs _ ih =>
    rw [key_or, key_or, List.map_append, List.map_append, List.map_cons,
      List.map_cons, ih]
  | andPerm hp =>
    haveI : RightCommutative kProd :=
      ⟨fun b a₁ a₂ => by rw [kProd_assoc, kProd_assoc, kProd_comm a₁ a₂]⟩
    rw [key_and, key_and]
    exact (hp.map _).foldl_eq 0
  | orPerm hp =>
    rw [key_or, key_or]
    exact (hp.map _).sum_eq
  | andFlat xs ys zs =>
    rw [key_and, key_and, List.map_append, List.map_cons, List.map_append,
      List.map_append, key_and, foldl_kProd_flat]
  | orFlat xs ys zs =>
    rw [key_or, key_or, List.map_append, List.map_cons, List.map_append,
      List.map_append, key_or, sum_flat]
  | andOne f =>
    rw [key_and, List.map_cons, List.map_nil, List.foldl_cons, List.foldl_nil,
      kProd_zero_left]
  | orOne f =>
    rw [key_or, List.map_cons, List.map_nil, List.sum_cons, List.sum_nil,
      add_zero]

/-- `sortAndCompact` is a function of the multiset of sorted inner
conjunctions alone. -/
theorem sortAndCompact_congr {d₁ d₂ : DNF} (h : dnfKey d₁ = dnfKey d₂) :
    sortAndCompact d₁ = sortAndCompact d₂ := by
  have hperm : (d₁.map sortConj).Perm (d₂.map sortConj) := Multiset.coe_eq_coe.mp h
  have hmap : ∀ d : DNF,
      d.map (fun c => compactFunc (fun a b => cmpEquals a b == .eq)
        (sortFunc cmpEquals c)) =
      (d.map sortConj).map (compactFunc (fun a b => cmpEquals a b == .eq)) := by
    intro d
    rw [List.map_map]
    rfl
  have heq : sortFunc cmpConj (d₁.map (fun c =>
        compactFunc (fun a b => cmpEquals a b == .eq) (sortFunc cmpEquals c))) =
      sortFunc cmpConj (d₂.map (fun c =>
        compactFunc (fun a b => cmpEquals a b == .eq) (sortFunc cmpEquals c))) := by
    rw [hmap d₁, hmap d₂]
    exact sortFunc_congr lawfulCmp_cmpConj (hperm.map _)
  show compactFunc (fun a b => cmpConj a b == .eq)
      (sortFunc cmpConj (d₁.map (fun c =>
        compactFunc (fun a b => cmpEquals a b == .eq) (sortFunc cmpEquals c)))) =
    compactFunc (fun a b => cmpConj a b == .eq)
      (sortFunc cmpConj (d₂.map (fun c =>
        compactFunc (fun a b => cmpEquals a b == .eq) (sortFunc cmpEquals c))))
  rw [heq]

/-- Claim C7: `FilterToDNF` produces a canonical form: any two filters
built from the same `Equals` leaves that differ only in `And`/`Or`
nesting and in the ordering of children yield equal DNFs (inner
conjunctions sorted by `(path, value)` and deduplicated, the outer
disjunction sorted and deduplicated), hence identical `String()`
renderings. -/
theorem claim_C7 (f g : FilterExpression) (h : FilterEquiv f g) :
    FilterToDNF (some f) = FilterToDNF (some g) ∧
    dnfString (FilterToDNF (some f)) = dnfString (FilterToDNF (some g)) := by
  have he : FilterToDNF (some f) = FilterToDNF (some g) :=
    sortAndCompact_congr (filterEquiv_key h)
  exact ⟨he, by rw [he]⟩

/-- Witness for C7: `And(a=1, Or(b=2, c=3))` versus
`And(Or(c=3, b=2), a=1)`, with the equivalence derivation spelled out and
the common canonical DNF computed. -/
theorem claim_C7_witness :
    FilterToDNF (some (.andExpr [.eqExpr ⟨["a"], "1"⟩,
        .orExpr [.eqExpr ⟨["b"], "2"⟩, .eqExpr ⟨["c"], "3"⟩]])) =
      FilterToDNF (some (.andExpr [.orExpr [.eqExpr ⟨["c"], "3"⟩, .eqExpr ⟨["b"], "2"⟩],
        .eqExpr ⟨["a"], "1"⟩])) := by
  refine (claim_C7 _ _ ?_).1
  refine FilterEquiv.trans
    (FilterEquiv.andCongr [FilterExpression.eqExpr ⟨["a"], "1"⟩] []
      (FilterEquiv.orPerm (List.Perm.swap (FilterExpression.eqExpr ⟨["c"], "3"⟩)
        (FilterExpression.eqExpr ⟨["b"], "2"⟩) [])))
    (FilterEquiv.andPerm ?_)
  exact List.Perm.swap _ _ []

/-! ## Records and the sorted-collection reconciler (`pkg/grpc/databroker`)

A `databroker.Record` carries `(type, id, data, version, modified_at,
deleted_at?)`.  The backend treats `data` as an opaque serialized
message; the only operation ever applied to it there is byte equality
(`proto.Equal` on deterministically-marshalled payloads) and the
spec-modelled field-mask merge, so it is embedded as an association list
of field name to value.  Timestamps are microsecond counts. -/

structure Record where
  rtype : String
  id : String
  data : List (String × String)
  version : Nat
  modifiedAt : Nat
  deletedAt : Option Nat
deriving DecidableEq, Repr

/-- `CompareRecordsByTypeAndID`: order records by type and id. -/
def CompareRecordsByTypeAndID (x y : Record) : Ordering :=
  ordOr (strCmp x.rtype y.rtype) (strCmp x.id y.id)

def recKey (r : Record) : String × String := (r.rtype, r.id)

def keyCmp (a b : String × String) : Ordering :=
  ordOr (strCmp a.1 b.1) (strCmp a.2 b.2)

theorem lawfulCmp_keyCmp : LawfulCmp keyCmp :=
  lawfulCmp_ordOr (γ := String × String) lawfulCmp_strCmp lawfulCmp_strCmp
    (f := Prod.fst) (g := Prod.snd)
    (fun x y hf hs => Prod.ext hf hs)

theorem cmpRecords_eq_keyCmp (x y : Record) :
    CompareRecordsByTypeAndID x y = keyCmp (recKey x) (recKey y) := rfl

theorem cmpRecords_eq_iff {x y : Record} :
    CompareRecordsByTypeAndID x y = .eq ↔ recKey x = recKey y := by
  rw [cmpRecords_eq_keyCmp]
  exact lawfulCmp_keyCmp.eq_iff _ _

/-- `RecordChange`: `Original` is set for deletions and modifications,
`Desired` for creations and modifications. -/
structure RecordChange where
  original : Option Record
  desired : Option Record
deriving DecidableEq, Repr

/-- The `(type, id)` key a change is about. -/
def changeKey (c : RecordChange) : String × String :=
  match c.original with
  | some r => recKey r
  | none =>
    match c.desired with
    | some r => recKey r
    | none => ("", "")

theorem changeKey_del (r : Record) : changeKey ⟨some r, none⟩ = recKey r := rfl

theorem changeKey_new (r : Record) : changeKey ⟨none, some r⟩ = recKey r := rfl

theorem changeKey_mod (r₁ r₂ : Record) : changeKey ⟨some r₁, some r₂⟩ = recKey r₁ := rfl

/-- `ReconcileSortedRecordCollections`: merge-walk the two sorted
record streams. Lazy `iter.Seq2` output is embedded as the list of
yielded changes; the error paths of the collection iterators cannot
fire for in-memory collections and are omitted. -/
def ReconcileSortedRecordCollections : List Record → List Record → List RecordChange
  | [], [] => []
  | o :: os, [] => ⟨some o, none⟩ :: ReconcileSortedRecordCollections os []
  | [], d :: ds => ⟨none, some d⟩ :: ReconcileSortedRecordCollections [] ds
  | o :: os, d :: ds =>
    match CompareRecordsByTypeAndID o d with
    | .lt => ⟨some o, none⟩ :: ReconcileSortedRecordCollections os (d :: ds)
    | .gt => ⟨none, some d⟩ :: ReconcileSortedRecordCollections (o :: os) ds
    | .eq =>
      if o.data = d.data then ReconcileSortedRecordCollections os ds
      else ⟨some o, some d⟩ :: ReconcileSortedRecordCollections os ds
termination_by o d => o.length + d.length

/-- Every change is about the key of a record of one of the inputs. -/
theorem reconcile_keys (o d : List Record) :
    ∀ c ∈ ReconcileSortedRecordCollections o d,
      (∃ r ∈ o, changeKey c = recKey r) ∨ (∃ r ∈ d, changeKey c = recKey r) := by
  induction o, d using ReconcileSortedRecordCollections.induct with
  | case1 => simp [ReconcileSortedRecordCollections]
  | case2 o os ih =>
    intro c hc
    simp only [ReconcileSortedRecordCollections] at hc
    rcases List.mem_cons.mp hc with rfl | hc'
    · exact Or.inl ⟨o, List.mem_cons_self .., rfl⟩
    · rcases ih c hc' with ⟨r, hr, he⟩ | ⟨r, hr, he⟩
      · exact Or.inl ⟨r, List.mem_cons_of_mem _ hr, he⟩
      · simp at hr
  | case3 d ds ih =>
    intro c hc
    simp only [ReconcileSortedRecordCollections] at hc
    rcases List.mem_cons.mp hc with rfl | hc'
    · exact Or.inr ⟨d, List.mem_cons_self .., rfl⟩
    · rcases ih c hc' with ⟨r, hr, he⟩ | ⟨r, hr, he⟩
      · simp at hr
      · exact Or.inr ⟨r, List.mem_cons_of_mem _ hr, he⟩
  | case4 o os d ds h ih =>
    intro c hc
    simp only [ReconcileSortedRecordCollections, h] at hc
    rcases List.mem_cons.mp hc with rfl | hc'
    · exact Or.inl ⟨o, List.mem_cons_self .., rfl⟩
    · rcases ih c hc' with ⟨r, hr, he⟩ | ⟨r, hr, he⟩
      · exact Or.inl ⟨r, List.mem_cons_of_mem _ hr, he⟩
      · exact Or.inr ⟨r, hr, he⟩
  | case5 o os d ds h ih =>
    intro c hc
    simp only [ReconcileSortedRecordCollections, h] at hc
    rcases List.mem_cons.mp hc with rfl | hc'
    · exact Or.inr ⟨d, List.mem_cons_self .., rfl⟩
    · rcases ih c hc' with ⟨r, hr, he⟩ | ⟨r, hr, he⟩
      · exact Or.inl ⟨r, hr, he⟩
      · exact Or.inr ⟨r, List.mem_cons_of_mem _ hr, he⟩
  | case6 o os d ds h h2 ih =>
    intro c hc
    simp only [ReconcileSortedRecordCollections, h, if_pos h2] at hc
    rcases ih c hc with ⟨r, hr, he⟩ | ⟨r, hr, he⟩
    · exact Or.inl ⟨r, List.mem_cons_of_mem _ hr, he⟩
    · exact Or.inr ⟨r, List.mem_cons_of_mem _ hr, he⟩
  | case7 o os d ds h h2 ih =>
    intro c hc
    simp only [ReconcileSortedRecordCollections, h, if_neg h2] at hc
    rcases List.mem_cons.mp hc with rfl | hc'
    · exact Or.inl ⟨o, List.mem_cons_self .., rfl⟩
    · rcases ih c hc' with ⟨r, hr, he⟩ | ⟨r, hr, he⟩
      · exact Or.inl ⟨r, List.mem_cons_of_mem _ hr, he⟩
      · exact Or.inr ⟨r, List.mem_cons_of_mem _ hr, he⟩

/-- The output of the reconciler is strictly sorted by change key. -/
theorem reconcile_sorted (o d : List Record)
    (ho : o.Pairwise (fun x y => CompareRecordsByTypeAndID x y = .lt))
    (hd : d.Pairwise (fun x y => CompareRecordsByTypeAndID x y = .lt)) :
    (ReconcileSortedRecordCollections o d).Pairwise
      (fun c c' => keyCmp (changeKey c) (changeKey c') = .lt) := by
  induction o, d using ReconcileSortedRecordCollections.induct with
  | case1 =>
    rw [ReconcileSortedRecordCollections]
    exact List.Pairwise.nil
  | case2 o os ih =>
    rw [ReconcileSortedRecordCollections, List.pairwise_cons]
    rcases List.pairwise_cons.mp ho with ⟨hoh, hot⟩
    refine ⟨?_, ih hot hd⟩
    intro c' hc'
    rw [changeKey_del]
    rcases reconcile_keys os [] c' hc' with ⟨r, hr, he⟩ | ⟨r, hr, he⟩
    · rw [he, ← cmpRecords_eq_keyCmp]
      exact hoh r hr
    · simp at hr
  | case3 d ds ih =>
    rw [ReconcileSortedRecordCollections, List.pairwise_cons]
    rcases List.pairwise_cons.mp hd with ⟨hdh, hdt⟩
    refine ⟨?_, ih ho hdt⟩
    intro c' hc'
    rw [changeKey_new]
    rcases reconcile_keys [] ds c' hc' with ⟨r, hr, he⟩ | ⟨r, hr, he⟩
    · simp at hr
    · rw [he, ← cmpRecords_eq_keyCmp]
      exact hdh r hr
  | case4 o os d ds h ih =>
    rw [ReconcileSortedRecordCollections]
    rw [h]
    rw [List.pairwise_cons]
    rcases List.pairwise_cons.mp ho with ⟨hoh, hot⟩
    refine ⟨?_, ih hot hd⟩
    intro c' hc'
    rw [changeKey_del]
    rcases reconcile_keys os (d :: ds) c' hc' with ⟨r, hr, he⟩ | ⟨r, hr, he⟩
    · rw [he, ← cmpRecords_eq_keyCmp]
      exact hoh r hr
    · rw [he]
      rcases List.mem_cons.mp hr with rfl | hr'
      · rw [← cmpRecords_eq_keyCmp]
        exact h
      · refine lawfulCmp_keyCmp.lt_trans _ (recKey d) _ ?_ ?_
        · rw [← cmpRecords_eq_keyCmp]
          exact h
        · rw [← cmpRecords_eq_keyCmp]
          exact (List.pairwise_cons.mp hd).1 r hr'
  | case5 o os d ds h ih =>
    rw [ReconcileSortedRecordCollections]
    rw [h]
    rw [List.pairwise_cons]
    rcases List.pairwise_cons.mp hd with ⟨hdh, hdt⟩
    refine ⟨?_, ih ho hdt⟩
    have hdo : keyCmp (recKey d) (recKey o) = .lt := by
      rw [← cmpRecords_eq_keyCmp]
      exact (lawfulCmp_keyCmp.lt_iff_gt (recKey d) (recKey o)).mpr
        (cmpRecords_eq_keyCmp o d ▸ h)
    intro c' hc'
    rw [changeKey_new]
    rcases reconcile_keys (o :: os) ds c' hc' with ⟨r, hr, he⟩ | ⟨r, hr, he⟩
    · rw [he]
      rcases List.mem_cons.mp hr with rfl | hr'
      · exact hdo
      · refine lawfulCmp_keyCmp.lt_trans _ (recKey o) _ hdo ?_
        rw [← cmpRecords_eq_keyCmp]
        exact (List.pairwise_cons.mp ho).1 r hr'
    · rw [he, ← cmpRecords_eq_keyCmp]
      exact hdh r hr
  | case6 o os d ds h h2 ih =>
    rw [ReconcileSortedRecordCollections]
    rw [h, if_pos h2]
    exact ih (List.pairwise_cons.mp ho).2 (List.pairwise_cons.mp hd).2
  | case7 o os d ds h h2 ih =>
    rw [ReconcileSortedRecordCollections]
    rw [h, if_neg h2]
    rw [List.pairwise_cons]
    rcases List.pairwise_cons.mp ho with ⟨hoh, hot⟩
    rcases List.pairwise_cons.mp hd with ⟨hdh, hdt⟩
    refine ⟨?_, ih hot hdt⟩
    intro c' hc'
    rw [changeKey_mod]
    rcases reconcile_keys os ds c' hc' with ⟨r, hr, he⟩ | ⟨r, hr, he⟩
    · rw [he, ← cmpRecords_eq_keyCmp]
      exact hoh r hr
    · rw [he]
      have hod : keyCmp (recKey o) (recKey d) = .eq := by
        rw [← cmpRecords_eq_keyCmp]
        exact h
      have : recKey o = recKey d := (lawfulCmp_keyCmp.eq_iff _ _).mp hod
      rw [this, ← cmpRecords_eq_keyCmp]
      exact hdh r hr

theorem keyCmp_lt_ne {a b : String × String} (h : keyCmp a b = .lt) : a ≠ b := by
  intro he
  rw [he, lawfulCmp_keyCmp.cmp_refl] at h
  cases h

/-- Membership characterisation of the reconciler output: exactly one
deletion per key only in `original`, one creation per key only in
`desired`, one modification per shared key with differing data, and
nothing for shared keys with equal data. -/
theorem reconcile_mem (o d : List Record)
    (ho : o.Pairwise (fun x y => CompareRecordsByTypeAndID x y = .lt))
    (hd : d.Pairwise (fun x y => CompareRecordsByTypeAndID x y = .lt)) :
    ∀ c, c ∈ ReconcileSortedRecordCollections o d ↔
      (∃ r, r ∈ o ∧ (∀ r' ∈ d, recKey r' ≠ recKey r) ∧
        c = ⟨some r, none⟩) ∨
      (∃ r, r ∈ d ∧ (∀ r' ∈ o, recKey r' ≠ recKey r) ∧
        c = ⟨none, some r⟩) ∨
      (∃ r₁ r₂, r₁ ∈ o ∧ r₂ ∈ d ∧ recKey r₁ = recKey r₂ ∧ r₁.data ≠ r₂.data ∧
        c = ⟨some r₁, some r₂⟩) := by
  induction o, d using ReconcileSortedRecordCollections.induct with
  | case1 =>
    intro c
    rw [ReconcileSortedRecordCollections]
    simp
  | case2 o os ih =>
    intro c
    rw [ReconcileSortedRecordCollections]
    constructor
    · intro hc
      rcases List.mem_cons.mp hc with rfl | hc'
      · exact Or.inl ⟨o, List.mem_cons_self .., by simp, rfl⟩
      · rcases (ih (List.pairwise_cons.mp ho).2 List.Pairwise.nil c).mp hc' with
          ⟨r, hr, hcond, rfl⟩ | ⟨r, hr, _, _⟩ | ⟨r₁, r₂, _, hr₂, _, _, _⟩
        · exact Or.inl ⟨r, List.mem_cons_of_mem _ hr, by simp, rfl⟩
        · simp at hr
        · simp at hr₂
    · rintro (⟨r, hr, hcond, rfl⟩ | ⟨r, hr, _, _⟩ | ⟨r₁, r₂, _, hr₂, _, _, _⟩)
      · rcases List.mem_cons.mp hr with rfl | hr'
        · exact List.mem_cons_self ..
        · refine List.mem_cons_of_mem _ ?_
          refine (ih (List.pairwise_cons.mp ho).2 List.Pairwise.nil _).mpr ?_
          exact Or.inl ⟨r, hr', by simp, rfl⟩
      · simp at hr
      · simp at hr₂
  | case3 d ds ih =>
    intro c
    rw [ReconcileSortedRecordCollections]
    constructor
    · intro hc
      rcases List.mem_cons.mp hc with rfl | hc'
      · exact Or.inr (Or.inl ⟨d, List.mem_cons_self .., by simp, rfl⟩)
      · rcases (ih List.Pairwise.nil (List.pairwise_cons.mp hd).2 c).mp hc' with
          ⟨r, hr, _, _⟩ | ⟨r, hr, hcond, rfl⟩ | ⟨r₁, r₂, hr₁, _, _, _, _⟩
        · simp at hr
        · exact Or.inr (Or.inl ⟨r, List.mem_cons_of_mem _ hr, by simp, rfl⟩)
        · simp at hr₁
    · rintro (⟨r, hr, _, _⟩ | ⟨r, hr, hcond, rfl⟩ | ⟨r₁, r₂, hr₁, _, _, _, _⟩)
      · simp at hr
      · rcases List.mem_cons.mp hr with rfl | hr'
        · exact List.mem_cons_self ..
        · refine List.mem_cons_of_mem _ ?_
          refine (ih List.Pairwise.nil (List.pairwise_cons.mp hd).2 _).mpr ?_
          exact Or.inr (Or.inl ⟨r, hr', by simp, rfl⟩)
      · simp at hr₁
  | case4 o os d ds h ih =>
    intro c
    rw [ReconcileSortedRecordCollections]
    rw [h]
    have hot := (List.pairwise_cons.mp ho).2
    have hoh := (List.pairwise_cons.mp ho).1
    have f1 : ∀ r' ∈ d :: ds, keyCmp (recKey o) (recKey r') = .lt := by
      intro r' hr'
      rcases List.mem_cons.mp hr' with rfl | hr''
      · exact h
      · exact lawfulCmp_keyCmp.lt_trans _ (recKey d) _ h
          ((List.pairwise_cons.mp hd).1 r' hr'')
    have f2 : ∀ r' ∈ d :: ds, recKey r' ≠ recKey o := by
      intro r' hr' he
      exact keyCmp_lt_ne (f1 r' hr') he.symm
    constructor
    · intro hc
      rcases List.mem_cons.mp hc with rfl | hc'
      · exact Or.inl ⟨o, List.mem_cons_self .., f2, rfl⟩
      · rcases (ih hot hd c).mp hc' with
          ⟨r, hr, hcond, rfl⟩ | ⟨r, hr, hcond, rfl⟩ |
            ⟨r₁, r₂, hr₁, hr₂, hk, hdata, rfl⟩
        · exact Or.inl ⟨r, List.mem_cons_of_mem _ hr, hcond, rfl⟩
        · refine Or.inr (Or.inl ⟨r, hr, ?_, rfl⟩)
          intro r' hr'
          rcases List.mem_cons.mp hr' with rfl | hr''
          · intro he
            exact keyCmp_lt_ne (f1 r hr) he
          · exact hcond r' hr''
        · exact Or.inr (Or.inr ⟨r₁, r₂, List.mem_cons_of_mem _ hr₁, hr₂, hk, hdata, rfl⟩)
    · rintro (⟨r, hr, hcond, rfl⟩ | ⟨r, hr, hcond, rfl⟩ |
        ⟨r₁, r₂, hr₁, hr₂, hk, hdata, rfl⟩)
      · rcases List.mem_cons.mp hr with rfl | hr'
        · exact List.mem_cons_self ..
        · refine List.mem_cons_of_mem _ ?_
          exact (ih hot hd _).mpr (Or.inl ⟨r, hr', hcond, rfl⟩)
      · refine List.mem_cons_of_mem _ ?_
        refine (ih hot hd _).mpr (Or.inr (Or.inl ⟨r, hr, ?_, rfl⟩))
        intro r' hr'
        exact hcond r' (List.mem_cons_of_mem _ hr')
      · rcases List.mem_cons.mp hr₁ with rfl | hr₁'
        · exact absurd hk.symm (f2 r₂ hr₂)
        · refine List.mem_cons_of_mem _ ?_
          exact (ih hot hd _).mpr (Or.inr (Or.inr ⟨r₁, r₂, hr₁', hr₂, hk, hdata, rfl⟩))
  | case5 o os d ds h ih =>
    intro c
    rw [ReconcileSortedRecordCollections]
    rw [h]
    have hdt := (List.pairwise_cons.mp hd).2
    have hdo : keyCmp (recKey d) (recKey o) = .lt :=
      (lawfulCmp_keyCmp.lt_iff_gt (recKey d) (recKey o)).mpr h
    have f1 : ∀ r' ∈ o :: os, keyCmp (recKey d) (recKey r') = .lt := by
      intro r' hr'
      rcases List.mem_cons.mp hr' with rfl | hr''
      · exact hdo
      · exact lawfulCmp_keyCmp.lt_trans _ (recKey o) _ hdo
          ((List.pairwise_cons.mp ho).1 r' hr'')
    have f2 : ∀ r' ∈ o :: os, recKey r' ≠ recKey d := by
      intro r' hr' he
      exact keyCmp_lt_ne (f1 r' hr') he.symm
    constructor
    · intro hc
      rcases List.mem_cons.mp hc with rfl | hc'
      · exact Or.inr (Or.inl ⟨d, List.mem_cons_self .., f2, rfl⟩)
      · rcases (ih ho hdt c).mp hc' with
          ⟨r, hr, hcond, rfl⟩ | ⟨r, hr, hcond, rfl⟩ |
            ⟨r₁, r₂, hr₁, hr₂, hk, hdata, rfl⟩
        · refine Or.inl ⟨r, hr, ?_, rfl⟩
          intro r' hr'
          rcases List.mem_cons.mp hr' with rfl | hr''
          · intro he
            exact keyCmp_lt_ne (f1 r hr) he
          · exact hcond r' hr''
        · exact Or.inr (Or.inl ⟨r, List.mem_cons_of_mem _ hr, hcond, rfl⟩)
        · exact Or.inr (Or.inr ⟨r₁, r₂, hr₁, List.mem_cons_of_mem _ hr₂, hk, hdata, rfl⟩)
    · rintro (⟨r, hr, hcond, rfl⟩ | ⟨r, hr, hcond, rfl⟩ |
        ⟨r₁, r₂, hr₁, hr₂, hk, hdata, rfl⟩)
      · refine List.mem_cons_of_mem _ ?_
        refine (ih ho hdt _).mpr (Or.inl ⟨r, hr, ?_, rfl⟩)
        intro r' hr'
        exact hcond r' (List.mem_cons_of_mem _ hr')
      · rcases List.mem_cons.mp hr with rfl | hr'
        · exact List.mem_cons_self ..
        · refine List.mem_cons_of_mem _ ?_
          exact (ih ho hdt _).mpr (Or.inr (Or.inl ⟨r, hr', hcond, rfl⟩))
      · rcases List.mem_cons.mp hr₂ with rfl | hr₂'
        · exact absurd hk (f2 r₁ hr₁)
        · refine List.mem_cons_of_mem _ ?_
          exact (ih ho hdt _).mpr (Or.inr (Or.inr ⟨r₁, r₂, hr₁, hr₂', hk, hdata, rfl⟩))
  | case6 o os d ds h h2 ih =>
    intro c
    rw [ReconcileSortedRecordCollections]
    rw [h, if_pos h2]
    have hot := (List.pairwise_cons.mp ho).2
    have hdt := (List.pairwise_cons.mp hd).2
    have hk : recKey o = recKey d := cmpRecords_eq_iff.mp h
    have g1 : ∀ r' ∈ ds, keyCmp (recKey o) (recKey r') = .lt := by
      intro r' hr'
      rw [show recKey o = recKey d from hk]
      exact (List.pairwise_cons.mp hd).1 r' hr'
    have g2 : ∀ r' ∈ os, keyCmp (recKey d) (recKey r') = .lt := by
      intro r' hr'
      rw [show recKey d = recKey o from hk.symm]
      exact (List.pairwise_cons.mp ho).1 r' hr'
    constructor
    · intro hc
      rcases (ih hot hdt c).mp hc with
        ⟨r, hr, hcond, rfl⟩ | ⟨r, hr, hcond, rfl⟩ |
          ⟨r₁, r₂, hr₁, hr₂, hkk, hdata, rfl⟩
      · refine Or.inl ⟨r, List.mem_cons_of_mem _ hr, ?_, rfl⟩
        intro r' hr'
        rcases List.mem_cons.mp hr' with rfl | hr''
        · intro he
          exact keyCmp_lt_ne (g2 r hr) he
        · exact hcond r' hr''
      · refine Or.inr (Or.inl ⟨r, List.mem_cons_of_mem _ hr, ?_, rfl⟩)
        intro r' hr'
        rcases List.mem_cons.mp hr' with rfl | hr''
        · intro he
          exact keyCmp_lt_ne (g1 r hr) he
        · exact hcond r' hr''
      · exact Or.inr (Or.inr ⟨r₁, r₂, List.mem_cons_of_mem _ hr₁,
          List.mem_cons_of_mem _ hr₂, hkk, hdata, rfl⟩)
    · rintro (⟨r, hr, hcond, rfl⟩ | ⟨r, hr, hcond, rfl⟩ |
        ⟨r₁, r₂, hr₁, hr₂, hkk, hdata, rfl⟩)
      · rcases List.mem_cons.mp hr with rfl | hr'
        · exact absurd hk.symm (hcond d (List.mem_cons_self ..))
        · refine (ih hot hdt _).mpr (Or.inl ⟨r, hr', ?_, rfl⟩)
          intro r' hr'
          exact hcond r' (List.mem_cons_of_mem _ hr')
      · rcases List.mem_cons.mp hr with rfl | hr'
        · exact absurd hk (hcond o (List.mem_cons_self ..))
        · refine (ih hot hdt _).mpr (Or.inr (Or.inl ⟨r, hr', ?_, rfl⟩))
          intro r' hr'
          exact hcond r' (List.mem_cons_of_mem _ hr')
      · rcases List.mem_cons.mp hr₁ with rfl | hr₁'
        · rcases List.mem_cons.mp hr₂ with rfl | hr₂'
          · exact absurd h2 hdata
          · exact absurd hkk (keyCmp_lt_ne (g1 r₂ hr₂'))
        · rcases List.mem_cons.mp hr₂ with rfl | hr₂'
          · exact absurd hkk.symm (keyCmp_lt_ne (g2 r₁ hr₁'))
          · exact (ih hot hdt _).mpr (Or.inr (Or.inr ⟨r₁, r₂, hr₁', hr₂', hkk, hdata, rfl⟩))
  | case7 o os d ds h h2 ih =>
    intro c
    rw [ReconcileSortedRecordCollections]
    rw [h, if_neg h2]
    have hot := (List.pairwise_cons.mp ho).2
    have hdt := (List.pairwise_cons.mp hd).2
    have hk : recKey o = recKey d := cmpRecords_eq_iff.mp h
    have g1 : ∀ r' ∈ ds, keyCmp (recKey o) (recKey r') = .lt := by
      intro r' hr'
      rw [show recKey o = recKey d from hk]
      exact (List.pairwise_cons.mp hd).1 r' hr'
    have g2 : ∀ r' ∈ os, keyCmp (recKey d) (recKey r') = .lt := by
      intro r' hr'
      rw [show recKey d = recKey o from hk.symm]
      exact (List.pairwise_cons.mp ho).1 r' hr'
    constructor
    · intro hc
      rcases List.mem_cons.mp hc with rfl | hc'
      · exact Or.inr (Or.inr ⟨o, d, List.mem_cons_self .., List.mem_cons_self ..,
          hk, h2, rfl⟩)
      · rcases (ih hot hdt c).mp hc' with
          ⟨r, hr, hcond, rfl⟩ | ⟨r, hr, hcond, rfl⟩ |
            ⟨r₁, r₂, hr₁, hr₂, hkk, hdata, rfl⟩
        · refine Or.inl ⟨r, List.mem_cons_of_mem _ hr, ?_, rfl⟩
          intro r' hr'
          rcases List.mem_cons.mp hr' with rfl | hr''
          · intro he
            exact keyCmp_lt_ne (g2 r hr) he
          · exact hcond r' hr''
        · refine Or.inr (Or.inl ⟨r, List.mem_cons_of_mem _ hr, ?_, rfl⟩)
          intro r' hr'
          rcases List.mem_cons.mp hr' with rfl | hr''
          · intro he
            exact keyCmp_lt_ne (g1 r hr) he
          · exact hcond r' hr''
        · exact Or.inr (Or.inr ⟨r₁, r₂, List.mem_cons_of_mem _ hr₁,
            List.mem_cons_of_mem _ hr₂, hkk, hdata, rfl⟩)
    · rintro (⟨r, hr, hcond, rfl⟩ | ⟨r, hr, hcond, rfl⟩ |
        ⟨r₁, r₂, hr₁, hr₂, hkk, hdata, rfl⟩)
      · rcases List.mem_cons.mp hr with rfl | hr'
        · exact absurd hk.symm (hcond d (List.mem_cons_self ..))
        · refine List.mem_cons_of_mem _ ?_
          refine (ih hot hdt _).mpr (Or.inl ⟨r, hr', ?_, rfl⟩)
          intro r' hr'
          exact hcond r' (List.mem_cons_of_mem _ hr')
      · rcases List.mem_cons.mp hr with rfl | hr'
        · exact absurd hk (hcond o (List.mem_cons_self ..))
        · refine List.mem_cons_of_mem _ ?_
          refine (ih hot hdt _).mpr (Or.inr (Or.inl ⟨r, hr', ?_, rfl⟩))
          intro r' hr'
          exact hcond r' (List.mem_cons_of_mem _ hr')
      · rcases List.mem_cons.mp hr₁ with rfl | hr₁'
        · rcases List.mem_cons.mp hr₂ with rfl | hr₂'
          · exact List.mem_cons_self ..
          · exact absurd hkk (keyCmp_lt_ne (g1 r₂ hr₂'))
        · rcases List.mem_cons.mp hr₂ with rfl | hr₂'
          · exact absurd hkk.symm (keyCmp_lt_ne (g2 r₁ hr₁'))
          · refine List.mem_cons_of_mem _ ?_
            exact (ih hot hdt _).mpr (Or.inr (Or.inr ⟨r₁, r₂, hr₁', hr₂', hkk, hdata, rfl⟩))

/-- Follows the claim's words ("the changes whose application to
original yields desired"): insert a record into a key-sorted list just
before the first entry whose key is not below it. -/
def insertSorted (r : Record) : List Record → List Record
  | [] => [r]
  | x :: l =>
    if keyCmp (recKey r) (recKey x) = .gt then x :: insertSorted r l
    else r :: x :: l

/-- Follows the claim's words: applying a change removes the `before`
record's key (deletion) or upserts the `after` record at its key
(creation and modification). -/
def applyChange (l : List Record) (c : RecordChange) : List Record :=
  match c.desired with
  | some r => insertSorted r (l.filter (fun x => !(recKey x == recKey r)))
  | none =>
    match c.original with
    | some r => l.filter (fun x => !(recKey x == recKey r))
    | none => l

def applyChanges (l : List Record) (cs : List RecordChange) : List Record :=
  cs.foldl applyChange l

/-- The view of a record an application can restore: its key and its
data (versions and timestamps are assigned by the store, not by the
reconciler's changes). -/
def keyData (r : Record) : (String × String) × List (String × String) :=
  (recKey r, r.data)

theorem filter_ne_key_of_all_ne {l : List Record} {k : String × String}
    (h : ∀ r' ∈ l, recKey r' ≠ k) :
    l.filter (fun x => !(recKey x == k)) = l := by
  refine List.filter_eq_self.mpr ?_
  intro a ha
  simpa using h a ha

theorem filter_ne_key_cons_self {x : Record} {l : List Record} {k : String × String}
    (hx : recKey x = k) (h : ∀ r' ∈ l, recKey r' ≠ k) :
    (x :: l).filter (fun r => !(recKey r == k)) = l := by
  rw [List.filter_cons]
  rw [if_neg (by simp [hx])]
  exact filter_ne_key_of_all_ne h

theorem insertSorted_lt {r x : Record} {l : List Record}
    (h : keyCmp (recKey r) (recKey x) = .lt) :
    insertSorted r (x :: l) = r :: x :: l := by
  unfold insertSorted
  rw [if_neg (by rw [h]; simp)]

/-- Changes about strictly larger keys leave a smaller head untouched. -/
theorem applyChanges_cons_lt {x : Record} {l : List Record}
    {cs : List RecordChange}
    (h : ∀ c ∈ cs, ∀ r : Record, (c.original = some r ∨ c.desired = some r) →
      keyCmp (recKey x) (recKey r) = .lt) :
    applyChanges (x :: l) cs = x :: applyChanges l cs := by
  induction cs generalizing l with
  | nil => rfl
  | cons c cs ih =>
    have hstep : applyChange (x :: l) c = x :: applyChange l c := by
      unfold applyChange
      rcases hd : c.desired with _ | r
      · rcases ho : c.original with _ | r
        · rfl
        · have hlt := h c (List.mem_cons_self ..) r (Or.inl ho)
          show (x :: l).filter (fun y => !(recKey y == recKey r)) =
            x :: l.filter (fun y => !(recKey y == recKey r))
          rw [List.filter_cons, if_pos (by simpa using keyCmp_lt_ne hlt)]
      · have hlt := h c (List.mem_cons_self ..) r (Or.inr hd)
        show insertSorted r ((x :: l).filter (fun y => !(recKey y == recKey r))) =
          x :: insertSorted r (l.filter (fun y => !(recKey y == recKey r)))
        rw [List.filter_cons, if_pos (by simpa using keyCmp_lt_ne hlt)]
        show (if keyCmp (recKey r) (recKey x) = .gt then
            x :: insertSorted r (l.filter (fun y => !(recKey y == recKey r)))
          else r :: x :: l.filter (fun y => !(recKey y == recKey r))) = _
        rw [if_pos ((lawfulCmp_keyCmp.lt_iff_gt _ _).mp hlt)]
    show applyChanges (applyChange (x :: l) c) cs = x :: applyChanges (applyChange l c) cs
    rw [hstep]
    exact ih (fun c' hc' => h c' (List.mem_cons_of_mem _ hc'))

/-- Every record inside a change of the reconciler output comes from one
of the two inputs. -/
theorem reconcile_constituents (o d : List Record)
    (ho : o.Pairwise (fun x y => CompareRecordsByTypeAndID x y = .lt))
    (hd : d.Pairwise (fun x y => CompareRecordsByTypeAndID x y = .lt)) :
    ∀ c ∈ ReconcileSortedRecordCollections o d, ∀ r : Record,
      (c.original = some r ∨ c.desired = some r) → r ∈ o ∨ r ∈ d := by
  intro c hc r hr
  rcases (reconcile_mem o d ho hd c).mp hc with
    ⟨r0, hr0, _, rfl⟩ | ⟨r0, hr0, _, rfl⟩ | ⟨r₁, r₂, hr₁, hr₂, _, _, rfl⟩
  · rcases hr with h | h
    · cases h
      exact Or.inl hr0
    · cases h
  · rcases hr with h | h
    · cases h
    · cases h
      exact Or.inr hr0
  · rcases hr with h | h
    · cases h
      exact Or.inl hr₁
    · cases h
      exact Or.inr hr₂

/-- Applying the reconciler's changes to `original` yields `desired`,
up to the view the changes carry (key and data). -/
theorem reconcile_apply (o d : List Record)
    (ho : o.Pairwise (fun x y => CompareRecordsByTypeAndID x y = .lt))
    (hd : d.Pairwise (fun x y => CompareRecordsByTypeAndID x y = .lt)) :
    (applyChanges o (ReconcileSortedRecordCollections o d)).map keyData =
      d.map keyData := by
  induction o, d using ReconcileSortedRecordCollections.induct with
  | case1 =>
    rw [ReconcileSortedRecordCollections]
    rfl
  | case2 o os ih =>
    rw [ReconcileSortedRecordCollections]
    have hot := (List.pairwise_cons.mp ho).2
    have hoh := (List.pairwise_cons.mp ho).1
    show (applyChanges (applyChange (o :: os) ⟨some o, none⟩)
      (ReconcileSortedRecordCollections os [])).map keyData = _
    have : applyChange (o :: os) ⟨some o, none⟩ = os := by
      unfold applyChange
      exact filter_ne_key_cons_self rfl
        (fun r' hr' he => keyCmp_lt_ne (cmpRecords_eq_keyCmp o r' ▸ hoh r' hr') he.symm)
    rw [this]
    exact ih hot hd
  | case3 d ds ih =>
    rw [ReconcileSortedRecordCollections]
    have hdt := (List.pairwise_cons.mp hd).2
    have hdh := (List.pairwise_cons.mp hd).1
    show (applyChanges (applyChange [] ⟨none, some d⟩)
      (ReconcileSortedRecordCollections [] ds)).map keyData = _
    have h1 : applyChange [] ⟨none, some d⟩ = [d] := rfl
    rw [h1]
    rw [applyChanges_cons_lt]
    · rw [List.map_cons]
      rw [ih ho hdt]
      rfl
    · intro c hc r hr
      rcases reconcile_constituents [] ds List.Pairwise.nil hdt c hc r hr with h | h
      · cases h
      · exact cmpRecords_eq_keyCmp d r ▸ hdh r h
  | case4 o os d ds h ih =>
    rw [ReconcileSortedRecordCollections]
    rw [h]
    have hot := (List.pairwise_cons.mp ho).2
    have hoh := (List.pairwise_cons.mp ho).1
    show (applyChanges (applyChange (o :: os) ⟨some o, none⟩)
      (ReconcileSortedRecordCollections os (d :: ds))).map keyData = _
    have : applyChange (o :: os) ⟨some o, none⟩ = os := by
      unfold applyChange
      exact filter_ne_key_cons_self rfl
        (fun r' hr' he => keyCmp_lt_ne (cmpRecords_eq_keyCmp o r' ▸ hoh r' hr') he.symm)
    rw [this]
    exact ih hot hd
  | case5 o os d ds h ih =>
    rw [ReconcileSortedRecordCollections]
    rw [h]
    have hdt := (List.pairwise_cons.mp hd).2
    have hdh := (List.pairwise_cons.mp hd).1
    have hdo : keyCmp (recKey d) (recKey o) = .lt :=
      (lawfulCmp_keyCmp.lt_iff_gt (recKey d) (recKey o)).mpr h
    have f1 : ∀ r' ∈ o :: os, keyCmp (recKey d) (recKey r') = .lt := by
      intro r' hr'
      rcases List.mem_cons.mp hr' with rfl | hr''
      · exact hdo
      · exact lawfulCmp_keyCmp.lt_trans _ (recKey o) _ hdo
          (cmpRecords_eq_keyCmp o r' ▸ (List.pairwise_cons.mp ho).1 r' hr'')
    show (applyChanges (applyChange (o :: os) ⟨none, some d⟩)
      (ReconcileSortedRecordCollections (o :: os) ds)).map keyData = _
    have h1 : applyChange (o :: os) ⟨none, some d⟩ = d :: o :: os := by
      show insertSorted d ((o :: os).filter (fun x => !(recKey x == recKey d))) = d :: o :: os
      rw [show ((o :: os).filter (fun x => !(recKey x == recKey d))) = o :: os from
        filter_ne_key_of_all_ne (fun r' hr' he => keyCmp_lt_ne (f1 r' hr') he.symm)]
      exact insertSorted_lt hdo
    rw [h1]
    rw [applyChanges_cons_lt]
    · rw [List.map_cons]
      rw [ih ho hdt]
      rfl
    · intro c hc r hr
      rcases reconcile_constituents (o :: os) ds ho hdt c hc r hr with hm | hm
      · exact f1 r hm
      · exact cmpRecords_eq_keyCmp d r ▸ hdh r hm
  | case6 o os d ds h h2 ih =>
    rw [ReconcileSortedRecordCollections]
    rw [h, if_pos h2]
    have hot := (List.pairwise_cons.mp ho).2
    have hdt := (List.pairwise_cons.mp hd).2
    have hk : recKey o = recKey d := cmpRecords_eq_iff.mp h
    rw [applyChanges_cons_lt]
    · rw [List.map_cons, ih hot hdt, List.map_cons]
      have : keyData o = keyData d := by
        unfold keyData
        rw [hk, h2]
      rw [this]
    · intro c hc r hr
      rcases reconcile_constituents os ds hot hdt c hc r hr with hm | hm
      · exact cmpRecords_eq_keyCmp o r ▸ (List.pairwise_cons.mp ho).1 r hm
      · rw [hk]
        exact cmpRecords_eq_keyCmp d r ▸ (List.pairwise_cons.mp hd).1 r hm
  | case7 o os d ds h h2 ih =>
    rw [ReconcileSortedRecordCollections]
    rw [h, if_neg h2]
    have hot := (List.pairwise_cons.mp ho).2
    have hdt := (List.pairwise_cons.mp hd).2
    have hk : recKey o = recKey d := cmpRecords_eq_iff.mp h
    show (applyChanges (applyChange (o :: os) ⟨some o, some d⟩)
      (ReconcileSortedRecordCollections os ds)).map keyData = _
    have h1 : applyChange (o :: os) ⟨some o, some d⟩ = insertSorted d os := by
      show insertSorted d ((o :: os).filter (fun r => !(recKey r == recKey d))) =
        insertSorted d os
      rw [filter_ne_key_cons_self hk (fun r' hr' he =>
        keyCmp_lt_ne (hk ▸ cmpRecords_eq_keyCmp o r' ▸
          (List.pairwise_cons.mp ho).1 r' hr') he.symm)]
    have h3 : insertSorted d os = d :: os := by
      match os with
      | [] => rfl
      | x :: os' =>
        refine insertSorted_lt ?_
        rw [← hk]
        exact cmpRecords_eq_keyCmp o x ▸ (List.pairwise_cons.mp ho).1 x (List.mem_cons_self ..)
    rw [h1, h3]
    rw [applyChanges_cons_lt]
    · rw [List.map_cons, ih hot hdt]
      rfl
    · intro c hc r hr
      rcases reconcile_constituents os ds hot hdt c hc r hr with hm | hm
      · rw [← hk]
        exact cmpRecords_eq_keyCmp o r ▸ (List.pairwise_cons.mp ho).1 r hm
      · exact cmpRecords_eq_keyCmp d r ▸ (List.pairwise_cons.mp hd).1 r hm

/-- Claim C8: for two finite streams `original` and `desired`, each
sorted by `(type, id)` ascending with no duplicate keys,
`ReconcileSortedRecordCollections` yields, in `(type, id)` order,
`{before: r, after: nil}` for every key only in `original`,
`{before: nil, after: r}` for every key only in `desired`,
`{before: r_orig, after: r_des}` for every shared key whose data
differs, and nothing for shared keys with equal data — exactly the
changes whose application to `original` yields `desired` (applying the
emitted deletions and upserts to `original` reproduces `desired`,
record by record, in its keys and data). -/
theorem claim_C8 (o d : List Record)
    (ho : o.Pairwise (fun x y => CompareRecordsByTypeAndID x y = .lt))
    (hd : d.Pairwise (fun x y => CompareRecordsByTypeAndID x y = .lt)) :
    (∀ c, c ∈ ReconcileSortedRecordCollections o d ↔
      (∃ r, r ∈ o ∧ (∀ r' ∈ d, recKey r' ≠ recKey r) ∧
        c = ⟨some r, none⟩) ∨
      (∃ r, r ∈ d ∧ (∀ r' ∈ o, recKey r' ≠ recKey r) ∧
        c = ⟨none, some r⟩) ∨
      (∃ r₁ r₂, r₁ ∈ o ∧ r₂ ∈ d ∧ recKey r₁ = recKey r₂ ∧ r₁.data ≠ r₂.data ∧
        c = ⟨some r₁, some r₂⟩)) ∧
    (ReconcileSortedRecordCollections o d).Pairwise
      (fun c c' => keyCmp (changeKey c) (changeKey c') = .lt) ∧
    (applyChanges o (ReconcileSortedRecordCollections o d)).map keyData =
      d.map keyData :=
  ⟨reconcile_mem o d ho hd, reconcile_sorted o d ho hd, reconcile_apply o d ho hd⟩

/-- Witness for C8: a concrete pair of sorted collections exercising all
four rules, with the sortedness hypotheses discharged by `decide` and
the actual output checked. -/
theorem claim_C8_witness :
    ((∀ c, c ∈ ReconcileSortedRecordCollections
        [⟨"t", "1", [("f", "a")], 1, 1, none⟩, ⟨"t", "2", [("f", "b")], 2, 2, none⟩]
        [⟨"t", "1", [("f", "c")], 3, 3, none⟩, ⟨"t", "3", [("f", "d")], 4, 4, none⟩] ↔
      (∃ r, r ∈ [Record.mk "t" "1" [("f", "a")] 1 1 none,
          Record.mk "t" "2" [("f", "b")] 2 2 none] ∧
        (∀ r' ∈ [Record.mk "t" "1" [("f", "c")] 3 3 none,
          Record.mk "t" "3" [("f", "d")] 4 4 none], recKey r' ≠ recKey r) ∧
        c = ⟨some r, none⟩) ∨
      (∃ r, r ∈ [Record.mk "t" "1" [("f", "c")] 3 3 none,
          Record.mk "t" "3" [("f", "d")] 4 4 none] ∧
        (∀ r' ∈ [Record.mk "t" "1" [("f", "a")] 1 1 none,
          Record.mk "t" "2" [("f", "b")] 2 2 none], recKey r' ≠ recKey r) ∧
        c = ⟨none, some r⟩) ∨
      (∃ r₁ r₂, r₁ ∈ [Record.mk "t" "1" [("f", "a")] 1 1 none,
          Record.mk "t" "2" [("f", "b")] 2 2 none] ∧
        r₂ ∈ [Record.mk "t" "1" [("f", "c")] 3 3 none,
          Record.mk "t" "3" [("f", "d")] 4 4 none] ∧
        recKey r₁ = recKey r₂ ∧ r₁.data ≠ r₂.data ∧
        c = ⟨some r₁, some r₂⟩)) ∧
    (ReconcileSortedRecordCollections
        [⟨"t", "1", [("f", "a")], 1, 1, none⟩, ⟨"t", "2", [("f", "b")], 2, 2, none⟩]
        [⟨"t", "1", [("f", "c")], 3, 3, none⟩, ⟨"t", "3", [("f", "d")], 4, 4, none⟩]).Pairwise
      (fun c c' => keyCmp (changeKey c) (changeKey c') = .lt) ∧
    (applyChanges
        [⟨"t", "1", [("f", "a")], 1, 1, none⟩, ⟨"t", "2", [("f", "b")], 2, 2, none⟩]
        (ReconcileSortedRecordCollections
          [⟨"t", "1", [("f", "a")], 1, 1, none⟩, ⟨"t", "2", [("f", "b")], 2, 2, none⟩]
          [⟨"t", "1", [("f", "c")], 3, 3, none⟩,
            ⟨"t", "3", [("f", "d")], 4, 4, none⟩])).map keyData =
      ([⟨"t", "1", [("f", "c")], 3, 3, none⟩, ⟨"t", "3", [("f", "d")], 4, 4, none⟩] :
        List Record).map keyData) ∧
    ReconcileSortedRecordCollections
        [⟨"t", "1", [("f", "a")], 1, 1, none⟩, ⟨"t", "2", [("f", "b")], 2, 2, none⟩]
        [⟨"t", "1", [("f", "c")], 3, 3, none⟩, ⟨"t", "3", [("f", "d")], 4, 4, none⟩] =
      [⟨some ⟨"t", "1", [("f", "a")], 1, 1, none⟩, some ⟨"t", "1", [("f", "c")], 3, 3, none⟩⟩,
       ⟨some ⟨"t", "2", [("f", "b")], 2, 2, none⟩, none⟩,
       ⟨none, some ⟨"t", "3", [("f", "d")], 4, 4, none⟩⟩] := by
  refine ⟨claim_C8 _ _ (by decide) (by decide), ?_⟩
  have h1 : CompareRecordsByTypeAndID ⟨"t", "1", [("f", "a")], 1, 1, none⟩
      ⟨"t", "1", [("f", "c")], 3, 3, none⟩ = .eq := by decide
  have h2 : CompareRecordsByTypeAndID ⟨"t", "2", [("f", "b")], 2, 2, none⟩
      ⟨"t", "3", [("f", "d")], 4, 4, none⟩ = .lt := by decide
  simp [ReconcileSortedRecordCollections, h1, h2]

/-! ## `$index.cidr` record matching (`pkg/storage`, index source file)

`GetRecordIndex` decodes a record's payload, looks up the reserved
top-level `$index` attribute and returns it when it is a struct;
`GetRecordIndexCIDR` reads its `cidr` sub-attribute as a string and
parses it as a CIDR prefix.  The payload is embedded at exactly the two
levels of structure these accessors inspect: a decoded struct is a list
of fields whose values are strings, sub-structs of string-valued leaves,
or something else (numbers, lists, …, to which `GetStructValue` /
`GetStringValue` answer nil / "").

Addresses are modelled as IPv4 only (the claims and tests use IPv4):
an address is its 32-bit numeric value, textual parsing follows
`netip.ParseAddr` / `netip.ParsePrefix` (dotted quad, octets 0..255
without leading zeros, `/bits` with `bits ≤ 32`).

`RecordMatchesIPPrefix` inserts the record's single `$index.cidr` route
into a `bart` routing table and does a longest-prefix lookup.  With
exactly one route `c` in the table, `LookupPrefix(p)` succeeds iff `c`
covers `p` — `c.bits ≤ p.bits` and the first `c.bits` bits of the
addresses agree — and `Lookup(a)` succeeds iff `c` contains the address
`a`; the table is embedded by those containment tests. -/

inductive LeafValue where
  | str (s : String)
  | other
deriving DecidableEq, Repr

inductive TopValue where
  | str (s : String)
  | obj (fields : List (String × LeafValue))
  | other
deriving DecidableEq, Repr

structure IndexedRecord where
  rtype : String
  id : String
  data : Option (List (String × TopValue))
deriving DecidableEq, Repr

/-- `GetRecordIndex`: the record's `$index` attribute when present and a
struct, else nil. -/
def GetRecordIndex (rec : IndexedRecord) : Option (List (String × LeafValue)) :=
  match rec.data with
  | none => none
  | some fields =>
    match fields.lookup "$index" with
    | some (.obj sub) => some sub
    | _ => none

def splitOnChar (sep : Char) : List Char → List (List Char)
  | [] => [[]]
  | c :: cs =>
    if c = sep then [] :: splitOnChar sep cs
    else
      match splitOnChar sep cs with
      | [] => [[c]]
      | p :: ps => (c :: p) :: ps

def isDigitChar (c : Char) : Bool := 48 ≤ c.toNat && c.toNat ≤ 57

def digitsToNat (cs : List Char) : Nat :=
  cs.foldl (fun acc c => acc * 10 + (c.toNat - 48)) 0

/-- A decimal field of at most `maxLen` digits, no leading zeros, value
at most `maxVal`. -/
def parseDecimal (cs : List Char) (maxLen maxVal : Nat) : Option Nat :=
  if cs.length = 0 then none
  else if maxLen < cs.length then none
  else if !(cs.all isDigitChar) then none
  else if 1 < cs.length ∧ cs.head? = some '0' then none
  else if maxVal < digitsToNat cs then none
  else some (digitsToNat cs)

/-- `netip.ParseAddr` restricted to IPv4: the numeric address value. -/
def parseIPv4 (s : String) : Option Nat :=
  match splitOnChar '.' s.data with
  | [a, b, c, d] => do
    let va ← parseDecimal a 3 255
    let vb ← parseDecimal b 3 255
    let vc ← parseDecimal c 3 255
    let vd ← parseDecimal d 3 255
    pure (((va * 256 + vb) * 256 + vc) * 256 + vd)
  | _ => none

/-- A parsed CIDR prefix: address value and prefix length. -/
structure Pfx where
  addr : Nat
  bits : Nat
deriving DecidableEq, Repr

/-- `netip.ParsePrefix` restricted to IPv4. -/
def parsePfx (s : String) : Option Pfx :=
  match splitOnChar '/' s.data with
  | [ip, b] => do
    let a ← parseIPv4 (String.mk ip)
    let n ← parseDecimal b 2 32
    pure ⟨a, n⟩
  | _ => none

/-- `GetRecordIndexCIDR`: the parsed `$index.cidr` of a record's data,
nil when absent, empty, or unparseable. -/
def GetRecordIndexCIDR (rec : IndexedRecord) : Option Pfx :=
  match GetRecordIndex rec with
  | none => none
  | some obj =>
    match obj.lookup "cidr" with
    | some (.str c) => if c = "" then none else parsePfx c
    | some .other => none
    | none => none

/-- The first `bits` bits of a 32-bit address. -/
def maskTop (bits a : Nat) : Nat := a / 2 ^ (32 - bits)

/-- Prefix `c` contains address `a`. -/
def pfxContainsAddr (c : Pfx) (a : Nat) : Bool :=
  maskTop c.bits a == maskTop c.bits c.addr

/-- Prefix `c` is a supernet of (or equal to) prefix `p`. -/
def pfxSupernetOf (c p : Pfx) : Bool :=
  decide (c.bits ≤ p.bits) && pfxContainsAddr c p.addr

/-- `RecordMatchesIPPrefix`: single-route `bart` longest-prefix lookup
of the queried prefix against the record's `$index.cidr`. -/
def RecordMatchesIPPrefix (rec : IndexedRecord) (p : Pfx) : Bool :=
  match GetRecordIndexCIDR rec with
  | none => false
  | some c => pfxSupernetOf c p

/-- `RecordMatchesIPAddr`: single-route `bart` lookup of the queried
address. -/
def RecordMatchesIPAddr (rec : IndexedRecord) (a : Nat) : Bool :=
  match GetRecordIndexCIDR rec with
  | none => false
  | some c => pfxContainsAddr c a

/-- `EqualsFilterExpression.MatchesRecord`. -/
def MatchesRecord (f : EqualsFilterExpression) (rec : IndexedRecord) :
    Except String Bool :=
  if f.fields = ["type"] then .ok (rec.rtype == f.value)
  else if f.fields = ["id"] then .ok (rec.id == f.value)
  else if f.fields = ["$index"] then
    match parsePfx f.value with
    | some p => .ok (RecordMatchesIPPrefix rec p)
    | none =>
      match parseIPv4 f.value with
      | some a => .ok (RecordMatchesIPAddr rec a)
      | none => .ok false
  else .error ("unsupported equals expression: " ++ String.intercalate "." f.fields)

theorem matchesRecord_index (rec : IndexedRecord) (v : String) :
    MatchesRecord ⟨["$index"], v⟩ rec =
      .ok (match parsePfx v with
        | some p => RecordMatchesIPPrefix rec p
        | none =>
          match parseIPv4 v with
          | some a => RecordMatchesIPAddr rec a
          | none => false) := by
  unfold MatchesRecord
  rw [if_neg (by simp), if_neg (by simp), if_pos rfl]
  rcases parsePfx v with _ | p
  · rcases parseIPv4 v with _ | a <;> rfl
  · rfl

/-- Claim C9: a record matches an `Equals` filter at path `["$index"]`
iff its `$index.cidr` contains the queried address or is a supernet of
(or equal to) the queried prefix; a record without a parseable
`$index.cidr` never matches; and `10.0.0.0/8` concretely matches
exactly the addresses inside `10.0.0.0/8` and the prefixes contained
within or equal to it. -/
theorem claim_C9 :
    (∀ (rec : IndexedRecord) (v : String),
      (∃ b, MatchesRecord ⟨["$index"], v⟩ rec = .ok b) ∧
      (MatchesRecord ⟨["$index"], v⟩ rec = .ok true ↔
        ∃ c, GetRecordIndexCIDR rec = some c ∧
          ((∃ p, parsePfx v = some p ∧ pfxSupernetOf c p = true) ∨
           (parsePfx v = none ∧
             ∃ a, parseIPv4 v = some a ∧ pfxContainsAddr c a = true)))) ∧
    (∀ (rec : IndexedRecord) (v : String), GetRecordIndexCIDR rec = none →
      MatchesRecord ⟨["$index"], v⟩ rec = .ok false) ∧
    (parsePfx "10.0.0.0/8" = some ⟨10 * 2 ^ 24, 8⟩) ∧
    (∀ a, a < 2 ^ 32 →
      (pfxContainsAddr ⟨10 * 2 ^ 24, 8⟩ a = true ↔
        10 * 2 ^ 24 ≤ a ∧ a < 11 * 2 ^ 24)) ∧
    (∀ p : Pfx, pfxSupernetOf ⟨10 * 2 ^ 24, 8⟩ p = true ↔
      8 ≤ p.bits ∧ maskTop 8 p.addr = 10) := by
  refine ⟨?_, ?_, by decide, ?_, ?_⟩
  · intro rec v
    rw [matchesRecord_index]
    refine ⟨⟨_, rfl⟩, ?_⟩
    rw [Except.ok.injEq]
    rcases hp : parsePfx v with _ | p
    · rcases ha : parseIPv4 v with _ | a
      · rcases hc : GetRecordIndexCIDR rec with _ | c <;> simp
      · rcases hc : GetRecordIndexCIDR rec with _ | c <;>
          simp [RecordMatchesIPAddr, hc]
    · rcases hc : GetRecordIndexCIDR rec with _ | c <;>
        simp [RecordMatchesIPPrefix, hc]
  · intro rec v hnone
    rw [matchesRecord_index]
    rcases parsePfx v with _ | p
    · rcases parseIPv4 v with _ | a
      · rfl
      · simp [RecordMatchesIPAddr, hnone]
    · simp [RecordMatchesIPPrefix, hnone]
  · intro a ha
    unfold pfxContainsAddr maskTop
    simp only [beq_iff_eq]
    constructor
    · intro h
      omega
    · intro h
      omega
  · intro p
    unfold pfxSupernetOf pfxContainsAddr maskTop
    simp only [Bool.and_eq_true, decide_eq_true_eq, beq_iff_eq]
    constructor
    · rintro ⟨h1, h2⟩
      refine ⟨h1, ?_⟩
      omega
    · rintro ⟨h1, h2⟩
      refine ⟨h1, ?_⟩
      omega

/-- Witness for C9 at concrete inputs: a record carrying
`$index.cidr = "10.0.0.0/8"` matched against concrete addresses and
prefixes, with all hypotheses discharged. -/
theorem claim_C9_witness :
    (MatchesRecord ⟨["$index"], "10.1.2.3"⟩
      ⟨"x", "1", some [("$index", .obj [("cidr", .str "10.0.0.0/8")])]⟩ = .ok true) ∧
    (MatchesRecord ⟨["$index"], "11.0.0.1"⟩
      ⟨"x", "1", some [("$index", .obj [("cidr", .str "10.0.0.0/8")])]⟩ = .ok false) ∧
    (MatchesRecord ⟨["$index"], "10.128.0.0/9"⟩
      ⟨"x", "1", some [("$index", .obj [("cidr", .str "10.0.0.0/8")])]⟩ = .ok true) ∧
    (MatchesRecord ⟨["$index"], "10.0.0.0/7"⟩
      ⟨"x", "1", some [("$index", .obj [("cidr", .str "10.0.0.0/8")])]⟩ = .ok false) ∧
    (MatchesRecord ⟨["$index"], "10.1.2.3"⟩ ⟨"x", "1", none⟩ = .ok false) ∧
    (pfxContainsAddr ⟨10 * 2 ^ 24, 8⟩ (10 * 2 ^ 24 + 5) = true ↔
      10 * 2 ^ 24 ≤ 10 * 2 ^ 24 + 5 ∧ 10 * 2 ^ 24 + 5 < 11 * 2 ^ 24) := by
  refine ⟨by rfl, by rfl, by rfl, by rfl, ?_, ?_⟩
  · exact claim_C9.2.1 ⟨"x", "1", none⟩ "10.1.2.3" (by rfl)
  · exact claim_C9.2.2.2.1 (10 * 2 ^ 24 + 5) (by decide)

/-! ## The pebble-backed record store (`pkg/storage/file`)

The backend is layered on pebble, an ordered key-value store, through
typed keyspaces.  Each keyspace is embedded as its own association list
(`alSet` shadows/replaces, `alDel` removes), matching pebble's upsert /
delete semantics; the modified-at index, whose values are empty, is a
duplicate-free list of its keys.  A batch is atomic, so an operation is
a pure function from the state before to the state after; `time.Now()`
becomes the explicit parameter `now` (microseconds); `uint64` versions
become `Nat`.

The change notifier (`internal/signal`, not under `src/`) is summarised
by a broadcast counter in the state: a `Broadcast` would increment it,
and `Sync(wait=true)` subscribers wake only when it does.  No function
in the backend source ever calls `Broadcast`, so no operation here
touches it. -/

structure DBOptions where
  capacity : Option Nat
deriving DecidableEq, Repr

def emptyOptions : DBOptions := ⟨none⟩

inductive PebbleErr where
  | notFound
  | wrappedNil
deriving DecidableEq, Repr

structure DB where
  latestRecordVersion : Nat
  serverVersion : Nat
  records : List ((String × String) × Record)
  modifiedAtIndex : List (String × Nat × String)
  changes : List (Nat × Record)
  leases : List (String × String × Nat)
  options : List (String × DBOptions)
  signalCount : Nat
deriving DecidableEq, Repr

def alSet [BEq κ] (l : List (κ × v)) (k : κ) (x : v) : List (κ × v) :=
  (k, x) :: l.filter (fun p => !(p.1 == k))

def alDel [BEq κ] (l : List (κ × v)) (k : κ) : List (κ × v) :=
  l.filter (fun p => !(p.1 == k))

def idxSet (l : List (String × Nat × String)) (e : String × Nat × String) :
    List (String × Nat × String) :=
  if l.contains e then l else e :: l

def idxDel (l : List (String × Nat × String)) (e : String × Nat × String) :
    List (String × Nat × String) :=
  l.filter (fun x => !(x == e))

/-- `Backend.deleteRecordLocked`: remove the record entry and its
modified-at index entry; a missing record is ignored.  No change-log
entry is written. -/
def deleteRecordLocked (db : DB) (recordType recordID : String) : DB :=
  match db.records.lookup (recordType, recordID) with
  | none => db
  | some record =>
    { db with
      records := alDel db.records (recordType, recordID)
      modifiedAtIndex :=
        idxDel db.modifiedAtIndex (record.rtype, record.modifiedAt, record.id) }

/-- `Backend.updateRecordLocked`: a record with `deleted_at` set is
routed to `deleteRecordLocked`; otherwise the existing modified-at index
entry is dropped, the record gets the next version and the current time,
and the record entry, change-log entry, index entry and version counter
are written.  Returns the state plus the record as mutated in place. -/
def updateRecordLocked (db : DB) (record : Record) (now : Nat) : DB × Record :=
  if record.deletedAt.isSome then
    (deleteRecordLocked db record.rtype record.id, record)
  else
    let db1 :=
      match db.records.lookup (record.rtype, record.id) with
      | none => db
      | some existing =>
        { db with modifiedAtIndex :=
            idxDel db.modifiedAtIndex (existing.rtype, existing.modifiedAt, existing.id) }
    let v := db1.latestRecordVersion + 1
    let r := { record with modifiedAt := now, version := v }
    ({ db1 with
        changes := alSet db1.changes v r
        records := alSet db1.records (r.rtype, r.id) r
        modifiedAtIndex := idxSet db1.modifiedAtIndex (r.rtype, now, r.id)
        latestRecordVersion := v }, r)

/-- The modified-at index entries of a type in reverse key order
(newest first; the key layout `type ‖ 0x00 ‖ modified_at(be) ‖ 0x00 ‖ id`
iterates ascending by `(modified_at, id)`, so reversed iteration is
descending).  The pebble iterator is created before the deletions below
and so sees a snapshot; the sorted list is precomputed accordingly. -/
def idxEntriesForTypeDesc (db : DB) (recordType : String) :
    List (String × Nat × String) :=
  sortFunc (fun a b => ordOr (natCmp b.2.1 a.2.1) (strCmp b.2.2 a.2.2))
    (db.modifiedAtIndex.filter (fun e => e.1 == recordType))

/-- `Backend.enforceOptionsLocked`: with a capacity set for the type,
walk the modified-at index newest first and delete every record past the
capacity. -/
def enforceOptionsLocked (db : DB) (recordType : String) : DB :=
  match db.options.lookup recordType with
  | none => db
  | some opts =>
    match opts.capacity with
    | none => db
    | some capacity =>
      ((idxEntriesForTypeDesc db recordType).drop capacity).foldl
        (fun d e => deleteRecordLocked d e.1 e.2.2) db

/-- `Backend.Put`: update each record in order, enforce capacity for the
touched types, commit, and return the unchanged server version.  (The
Go code collects touched types in a hash set with unspecified iteration
order; first-occurrence order is used here — capacity enforcement for
distinct types touches disjoint keys.) -/
def Put (db : DB) (records : List Record) (now : Nat) : Nat × DB :=
  let serverVersion := db.serverVersion
  let db1 := records.foldl (fun d r => (updateRecordLocked d r now).1) db
  let recordTypes := (records.map (fun r => r.rtype)).eraseDups
  let db2 := recordTypes.foldl enforceOptionsLocked db1
  (serverVersion, db2)

/-- Modelled from the spec: `storage.PatchRecord` is not under `src/`.
"Merge only fields named by the field mask": the merged payload is the
existing record's data with each masked field replaced by the incoming
record's value for it; the merged payload is written back into the
incoming record. -/
def PatchRecord (existing record : Record) (fields : List String) : Record :=
  { record with data :=
      fields.foldl (fun d f =>
        match record.data.lookup f with
        | some x => alSet d f x
        | none => alDel d f) existing.data }

/-- `Backend.patchRecordLocked`: an input whose `(type, id)` has no
existing record is skipped — the state is untouched and the input is
returned as is; otherwise the masked merge is stored via
`updateRecordLocked`. -/
def patchRecordLocked (db : DB) (record : Record) (fields : List String)
    (now : Nat) : DB × Record :=
  match db.records.lookup (record.rtype, record.id) with
  | none => (db, record)
  | some existing =>
    updateRecordLocked db (PatchRecord existing record fields) now

/-- `Backend.Patch`: like `Put` but through `patchRecordLocked`.  The
returned `patchedRecords` slice is pre-allocated with one slot per
input and every slot is assigned before the per-record call, so it keeps
one entry per input whether or not the input matched an existing
record. -/
def Patch (db : DB) (records : List Record) (fields : List String) (now : Nat) :
    Nat × List Record × DB :=
  let serverVersion := db.serverVersion
  let step := records.foldl (fun (acc : DB × List Record) r =>
      let dr := patchRecordLocked acc.1 r fields now
      (dr.1, acc.2 ++ [dr.2])) (db, [])
  let recordTypes := (records.map (fun r => r.rtype)).eraseDups
  let db2 := recordTypes.foldl enforceOptionsLocked step.1
  (serverVersion, step.2, db2)

/-- `Backend.GetOptions`, translated faithfully: the not-found branch
substitutes empty options but falls through to `return options, err`
with `err` still the not-found error, and the `else` branch — taken
whenever the read succeeds, because the code omits the `err != nil`
guard — returns nil options and a wrapping error around the nil read
error (`wrappedNil`). -/
def GetOptions (db : DB) (recordType : String) :
    Option DBOptions × Option PebbleErr :=
  match db.options.lookup recordType with
  | none => (some emptyOptions, some .notFound)
  | some _ => (none, some .wrappedNil)

/-- `Backend.SetOptions`: empty options delete the entry, anything else
is stored. -/
def SetOptions (db : DB) (recordType : String) (options : DBOptions) : DB :=
  if options = emptyOptions then
    { db with options := alDel db.options recordType }
  else
    { db with options := alSet db.options recordType options }

def leaseSet (db : DB) (leaseName leaseID : String) (expiresAt : Nat) : DB :=
  { db with leases := alSet db.leases leaseName (leaseID, expiresAt) }

/-- `Backend.Lease`.  The lease keyspace `get`/`set` are
`panic("not implemented")` in the source; modelled from the spec:
keyspace tag 6 maps `name` to `holder_id ‖ 0x00 ‖ expires_at`, i.e. an
association of name to holder and expiry.  The two `time.Now()` calls
are represented by the single instant `now`; expiry uses
`expiresAt.Before(now)`, i.e. strictly less. -/
def Lease (db : DB) (leaseName leaseID : String) (ttl now : Nat) : Bool × DB :=
  match db.leases.lookup leaseName with
  | none => (true, leaseSet db leaseName leaseID (now + ttl))
  | some (currentLeaseID, expiresAt) =>
    if currentLeaseID = leaseID ∨ expiresAt < now then
      (true, leaseSet db leaseName leaseID (now + ttl))
    else
      (false, db)

/-- `Backend.listChangedRecordsAfterLocked` is a stub: it returns
`nil, nil` unconditionally. -/
def listChangedRecordsAfterLocked (db : DB) (recordType : String)
    (recordVersion : Nat) : List Record :=
  []

inductive SyncErr where
  | invalidServerVersion
deriving DecidableEq, Repr

inductive SyncItem where
  | item (r : Record)
  | err (e : SyncErr)
deriving DecidableEq, Repr

/-- `Backend.Sync` with `wait = false`, as the list of yielded items: a
server-version mismatch yields the invalid-server-version error and
stops; otherwise the loop reads `listChangedRecordsAfterLocked` — the
stub, so always empty — takes the `!wait` break on the first pass, and
the iterator ends after yielding each listed record (none). -/
def SyncNoWait (db : DB) (recordType : String)
    (serverVersion recordVersion : Nat) : List SyncItem :=
  if serverVersion ≠ db.serverVersion then [.err .invalidServerVersion]
  else (listChangedRecordsAfterLocked db recordType recordVersion).map .item

/-- A freshly migrated store: empty, with a server version. -/
def db0 : DB := ⟨0, 1, [], [], [], [], [], 0⟩

/-- The store after one successful `Put` of a type-"x" record into the
fresh store. -/
def dbAfterPut : DB := (Put db0 [⟨"x", "1", [("k", "v")], 0, 0, none⟩] 10).2

/-- Claim C1 (refuted by the code): `Sync(type, current_sv, v, wait=false)`
should stream the changed records after `v`; the code's
`listChangedRecordsAfterLocked` is a stub returning nil, so a matching
`Sync` always yields nothing — also when the change log is non-empty. -/
theorem claim_C1 :
    (∀ (db : DB) (recordType : String) (recordVersion : Nat),
      SyncNoWait db recordType db.serverVersion recordVersion = []) ∧
    (dbAfterPut.changes = [(1, ⟨"x", "1", [("k", "v")], 1, 10, none⟩)] ∧
      SyncNoWait dbAfterPut "x" dbAfterPut.serverVersion 0 = []) := by
  constructor
  · intro db recordType recordVersion
    unfold SyncNoWait
    rw [if_neg (by simp)]
    rfl
  · constructor <;> decide

/-- Claim C2 (refuted by the code): a `Put` of a record with
`deleted_at` set deletes the record entry and its modified-at index
entry, but appends no tombstone to the change log and assigns no new
version; a `Put` of a `deleted_at` record with no existing record
leaves the store unchanged. -/
theorem claim_C2 :
    dbAfterPut.records.lookup ("x", "1") =
      some ⟨"x", "1", [("k", "v")], 1, 10, none⟩ ∧
    (Put dbAfterPut [⟨"x", "1", [], 0, 0, some 20⟩] 20).2.records.lookup ("x", "1") =
      none ∧
    (Put dbAfterPut [⟨"x", "1", [], 0, 0, some 20⟩] 20).2.modifiedAtIndex = [] ∧
    (Put dbAfterPut [⟨"x", "1", [], 0, 0, some 20⟩] 20).2.changes =
      dbAfterPut.changes ∧
    (Put dbAfterPut [⟨"x", "1", [], 0, 0, some 20⟩] 20).2.latestRecordVersion =
      dbAfterPut.latestRecordVersion ∧
    (Put dbAfterPut [⟨"x", "2", [], 0, 0, some 20⟩] 20).2 = dbAfterPut := by
  decide

theorem foldl_signalCount {γ : Type _} {f : DB → γ → DB}
    (h : ∀ d x, (f d x).signalCount = d.signalCount) (l : List γ) (d : DB) :
    (l.foldl f d).signalCount = d.signalCount := by
  induction l generalizing d with
  | nil => rfl
  | cons x l ih => rw [List.foldl_cons, ih, h]

theorem deleteRecordLocked_signalCount (db : DB) (t i : String) :
    (deleteRecordLocked db t i).signalCount = db.signalCount := by
  unfold deleteRecordLocked
  rcases db.records.lookup (t, i) with _ | r <;> rfl

theorem updateRecordLocked_signalCount (db : DB) (r : Record) (now : Nat) :
    (updateRecordLocked db r now).1.signalCount = db.signalCount := by
  unfold updateRecordLocked
  split
  · exact deleteRecordLocked_signalCount ..
  · rcases db.records.lookup (r.rtype, r.id) with _ | e <;> rfl

theorem enforceOptionsLocked_signalCount (db : DB) (t : String) :
    (enforceOptionsLocked db t).signalCount = db.signalCount := by
  unfold enforceOptionsLocked
  split
  · rfl
  · split
    · rfl
    · exact foldl_signalCount
        (fun (d : DB) (e : String × Nat × String) =>
          deleteRecordLocked_signalCount d e.1 e.2.2) _ _

theorem patchRecordLocked_signalCount (db : DB) (r : Record) (fields : List String)
    (now : Nat) : (patchRecordLocked db r fields now).1.signalCount = db.signalCount := by
  unfold patchRecordLocked
  rcases db.records.lookup (r.rtype, r.id) with _ | e
  · rfl
  · exact updateRecordLocked_signalCount ..

/-- Claim C3 (refuted by the code): the spec requires every successful
`Put`/`Patch` commit to broadcast the change notifier; the backend never
calls `Broadcast` on `onRecordChange` anywhere, so the notifier state is
untouched by both operations and a `Sync(wait=true)` subscriber bound
before a commit is never woken by it. -/
theorem claim_C3 :
    (∀ (db : DB) (records : List Record) (now : Nat),
      ((Put db records now).2).signalCount = db.signalCount) ∧
    (∀ (db : DB) (records : List Record) (fields : List String) (now : Nat),
      ((Patch db records fields now).2.2).signalCount = db.signalCount) := by
  constructor
  · intro db records now
    unfold Put
    rw [foldl_signalCount (fun d t => enforceOptionsLocked_signalCount d t),
      foldl_signalCount (fun d r => updateRecordLocked_signalCount d r now)]
  · intro db records fields now
    unfold Patch
    rw [foldl_signalCount (fun d t => enforceOptionsLocked_signalCount d t)]
    have hstep : ∀ (acc : DB × List Record) (r : Record),
        ((fun (acc : DB × List Record) r =>
          let dr := patchRecordLocked acc.1 r fields now
          (dr.1, acc.2 ++ [dr.2])) acc r).1.signalCount = acc.1.signalCount :=
      fun acc r => patchRecordLocked_signalCount acc.1 r fields now
    have hfold : ∀ (l : List Record) (acc : DB × List Record),
        (l.foldl (fun (acc : DB × List Record) r =>
          let dr := patchRecordLocked acc.1 r fields now
          (dr.1, acc.2 ++ [dr.2])) acc).1.signalCount = acc.1.signalCount := by
      intro l
      induction l with
      | nil => intro acc; rfl
      | cons r l ih =>
        intro acc
        rw [List.foldl_cons, ih, hstep]
    exact hfold records (db, [])

/-- Claim C4 (refuted by the code): `GetOptions` never succeeds.  The
not-found branch substitutes empty options but returns the not-found
read error, and a successful read takes the unguarded `else` branch and
returns a wrapping error; in both cases `err ≠ nil`. -/
theorem claim_C4 :
    (∀ (db : DB) (recordType : String),
      (GetOptions db recordType).2.isSome = true) ∧
    GetOptions db0 "x" = (some emptyOptions, some .notFound) ∧
    GetOptions (SetOptions db0 "x" ⟨some 3⟩) "x" = (none, some .wrappedNil) := by
  refine ⟨?_, by decide, by decide⟩
  intro db recordType
  unfold GetOptions
  rcases db.options.lookup recordType with _ | o <;> rfl

/-- Counterexample to claim C5 as stated: patching a record whose
`(type, id)` has no existing record leaves the store unchanged, but the
skipped input does appear in the returned patched list (the claim says
it must not). -/
theorem claim_C5_counterexample :
    db0.records.lookup ("x", "1") = none ∧
    (Patch db0 [⟨"x", "1", [("k", "w")], 0, 0, none⟩] ["k"] 5).2.1 =
      [⟨"x", "1", [("k", "w")], 0, 0, none⟩] ∧
    (Patch db0 [⟨"x", "1", [("k", "w")], 0, 0, none⟩] ["k"] 5).2.2 = db0 := by
  decide

/-- Claim C5 as amended: an input with no matching existing record is
skipped for storage — the store is unchanged by that input and the input
is returned as is — but the returned patched list is not filtered: it
has exactly one entry per input. -/
theorem claim_C5 (db : DB) (records : List Record) (fields : List String)
    (now : Nat) :
    ((Patch db records fields now).2.1).length = records.length ∧
    (∀ (d : DB) (r : Record), d.records.lookup (r.rtype, r.id) = none →
      patchRecordLocked d r fields now = (d, r)) := by
  constructor
  · unfold Patch
    have hfold : ∀ (l : List Record) (acc : DB × List Record),
        (l.foldl (fun (acc : DB × List Record) r =>
          let dr := patchRecordLocked acc.1 r fields now
          (dr.1, acc.2 ++ [dr.2])) acc).2.length = acc.2.length + l.length := by
      intro l
      induction l with
      | nil => intro acc; rfl
      | cons r l ih =>
        intro acc
        rw [List.foldl_cons, ih]
        simp
        omega
    have := hfold records (db, [])
    simpa using this
  · intro d r h
    unfold patchRecordLocked
    rw [h]

/-- Witness for the amended C5 at a concrete skipped input. -/
theorem claim_C5_witness :
    patchRecordLocked db0 ⟨"x", "1", [("k", "w")], 0, 0, none⟩ ["k"] 5 =
      (db0, ⟨"x", "1", [("k", "w")], 0, 0, none⟩) ∧
    ((Patch db0 [⟨"x", "1", [("k", "w")], 0, 0, none⟩] ["k"] 5).2.1).length = 1 :=
  ⟨(claim_C5 db0 [⟨"x", "1", [("k", "w")], 0, 0, none⟩] ["k"] 5).2
      db0 ⟨"x", "1", [("k", "w")], 0, 0, none⟩ (by decide),
    (claim_C5 db0 [⟨"x", "1", [("k", "w")], 0, 0, none⟩] ["k"] 5).1⟩

/-- A store holding the lease `L` for holder `h1` expiring at 100. -/
def dbLease : DB := ⟨0, 1, [], [], [], [("L", ("h1", 100))], [], 0⟩

/-- Counterexample to claim C6 as stated: with the stored
`expires_at = now` (so `expires_at ≤ now`) and a different requester,
the claim says the lease is acquired, but the code's expiry test is
`expiresAt.Before(now)` — strict — so the request is refused and the
stored lease kept. -/
theorem claim_C6_counterexample :
    dbLease.leases.lookup "L" = some ("h1", 100) ∧
    (100 : Nat) ≤ 100 ∧
    ("h1" : String) ≠ "h2" ∧
    Lease dbLease "L" "h2" 10 100 = (false, dbLease) := by
  decide

/-- Claim C6 as amended (`expires_at < now`, strictly, instead of `≤`):
a lease with no entry, or a strictly expired entry, or an entry held by
the requester, is (re)acquired with `holder_id = requester` and
`expires_at = now + ttl`; otherwise the call returns `false` and the
stored lease is untouched. -/
theorem claim_C6 (db : DB) (leaseName leaseID : String) (ttl now : Nat) :
    (db.leases.lookup leaseName = none →
      Lease db leaseName leaseID ttl now =
        (true, leaseSet db leaseName leaseID (now + ttl))) ∧
    (∀ currentLeaseID expiresAt,
      db.leases.lookup leaseName = some (currentLeaseID, expiresAt) →
      (currentLeaseID = leaseID ∨ expiresAt < now) →
      Lease db leaseName leaseID ttl now =
        (true, leaseSet db leaseName leaseID (now + ttl))) ∧
    (∀ currentLeaseID expiresAt,
      db.leases.lookup leaseName = some (currentLeaseID, expiresAt) →
      currentLeaseID ≠ leaseID → ¬ expiresAt < now →
      Lease db leaseName leaseID ttl now = (false, db)) := by
  refine ⟨?_, ?_, ?_⟩
  · intro h
    simp only [Lease, h]
  · intro currentLeaseID expiresAt h hc
    simp only [Lease, h]
    rw [if_pos hc]
  · intro currentLeaseID expiresAt h hne hexp
    simp only [Lease, h]
    rw [if_neg (by tauto)]

/-- Witness for the amended C6: fresh acquisition, takeover of a
strictly expired lease, renewal by the holder, and refusal while held. -/
theorem claim_C6_witness :
    Lease db0 "L" "h2" 10 100 = (true, leaseSet db0 "L" "h2" 110) ∧
    Lease dbLease "L" "h2" 10 101 = (true, leaseSet dbLease "L" "h2" 111) ∧
    Lease dbLease "L" "h1" 10 50 = (true, leaseSet dbLease "L" "h1" 60) ∧
    Lease dbLease "L" "h2" 10 50 = (false, dbLease) :=
  ⟨(claim_C6 db0 "L" "h2" 10 100).1 (by decide),
    (claim_C6 dbLease "L" "h2" 10 101).2.1 "h1" 100 (by decide) (Or.inr (by decide)),
    (claim_C6 dbLease "L" "h1" 10 50).2.1 "h1" 100 (by decide) (Or.inl rfl),
    (claim_C6 dbLease "L" "h2" 10 50).2.2 "h1" 100 (by decide) (by decide) (by decide)⟩

end Pomerium
